import Mathlib

/-!
Verification development for the song-section generation pipeline
(`post_filter.py`, `generate_sections.py`).

The Python code is shallowly embedded:
* strings are Lean `String`s, processed through their underlying `List Char`;
* Python floats are modelled as `ℚ` (all arithmetic in the scored range is exact);
* Python ints are modelled as `Nat`/`Int` as appropriate;
* the external generation interface (`mlx_lm.generate`) is opaque in the source
  and is modelled by parametrising over the list of raw strings it returns;
* the two regular expressions `TAG_OPEN = ^\s*<([A-Z]+)([^>]*)>\s*$` and
  `TAG_CLOSE = ^\s*</([A-Z]+)>\s*$` are deterministic (no essential
  backtracking) and are embedded as direct scanners;
* `\s` / `str.strip` / `str.split` whitespace and `str.splitlines` boundaries
  are modelled by their ASCII subsets (space, tab, newline, carriage return,
  vertical tab, form feed), which covers every character class the code and
  the claims exercise.
-/

namespace SongGen

attribute [local semireducible] Rat.add Rat.mul Rat.sub Rat.inv Rat.ofScientific

/-- Character class of the regex `[А-Яа-яЁё]` (CYR in post_filter.py).
The ranges А..Я (U+0410..U+042F) and а..я (U+0430..U+044F) are contiguous. -/
def isCyr (c : Char) : Bool := ('А' ≤ c && c ≤ 'я') || c = 'Ё' || c = 'ё'

/-- Character class of the regex `[A-Za-z]` (LAT in post_filter.py). -/
def isLat (c : Char) : Bool := ('A' ≤ c && c ≤ 'Z') || ('a' ≤ c && c ≤ 'z')

/-- Character class `[A-Z]`. -/
def isUpperLat (c : Char) : Bool := 'A' ≤ c && c ≤ 'Z'

/-- Character class `[0-9]`. -/
def isDigit09 (c : Char) : Bool := '0' ≤ c && c ≤ '9'

/-- ASCII model of Python's `\s` / `str.strip()` / `str.split()` whitespace. -/
def isPySpace (c : Char) : Bool :=
  c = ' ' || c = '\t' || c = '\n' || c = '\r' || c = '\x0b' || c = '\x0c'

/-- ASCII model of the line boundaries recognised by `str.splitlines()`. -/
def isLineBreak (c : Char) : Bool :=
  c = '\n' || c = '\r' || c = '\x0b' || c = '\x0c'

/-- Model of Python `str.strip()` on the character list: drop whitespace from
the front, then from the back (`rdropWhile p l = (l.reverse.dropWhile p).reverse`). -/
def stripList (l : List Char) : List Char :=
  (l.dropWhile isPySpace).rdropWhile isPySpace

/-- Worker for `collapseWs`: `inSpace` records whether the scanner is inside
a whitespace run whose single replacement space has already been emitted.
(Structurally recursive so that the kernel can evaluate it.) -/
def collapseGo : Bool → List Char → List Char
  | _, [] => []
  | inSpace, c :: cs =>
    if isPySpace c then
      if inSpace then collapseGo true cs else ' ' :: collapseGo true cs
    else c :: collapseGo false cs

/-- Model of `re.sub(r"\s+", " ", line)`: every maximal whitespace run becomes
one space. -/
def collapseWs (l : List Char) : List Char := collapseGo false l

/-- Worker for `splitRuns`: `cur` holds the reversed current run (empty when
between runs). -/
def splitRunsGo (p : Char → Bool) : List Char → List Char → List (List Char)
  | cur, [] => if cur.isEmpty then [] else [cur.reverse]
  | cur, c :: cs =>
    if p c then splitRunsGo p (c :: cur) cs
    else if cur.isEmpty then splitRunsGo p [] cs
    else cur.reverse :: splitRunsGo p [] cs

/-- Maximal runs of characters satisfying `p`; models both `str.split()`
(with `p` = not-whitespace) and `re.findall(charclass+, s)`. -/
def splitRuns (p : Char → Bool) (l : List Char) : List (List Char) :=
  splitRunsGo p [] l

/-- Model of Python `str.split()` (split on whitespace runs, no empties). -/
def pySplit (l : List Char) : List (List Char) :=
  splitRuns (fun c => !isPySpace c) l

/-- Tail-call worker for `splitlinesList`; `cur` holds the reversed current
line. -/
def splitlinesGo : List Char → List Char → List (List Char)
  | cur, [] => if cur.isEmpty then [] else [cur.reverse]
  | cur, '\r' :: '\n' :: rest => cur.reverse :: splitlinesGo [] rest
  | cur, c :: rest =>
    if isLineBreak c then cur.reverse :: splitlinesGo [] rest
    else splitlinesGo (c :: cur) rest

/-- Model of Python `str.splitlines()`. -/
def splitlinesList (l : List Char) : List (List Char) :=
  splitlinesGo [] l

/-- Join a list of character lists with a separator (`sep.join(...)`). -/
def joinSep (sep : List Char) : List (List Char) → List Char
  | [] => []
  | [x] => x
  | x :: xs => x ++ sep ++ joinSep sep xs

/-- Matcher for `TAG_OPEN = ^\s*<([A-Z]+)([^>]*)>\s*$`.  The regex is
deterministic: after optional whitespace and `<` there must be at least one
`A-Z` character, then everything up to the first `>` (which `[^>]*` must not
cross), then only whitespace to the end. -/
def tagOpenMatch (l : List Char) : Bool :=
  match l.dropWhile isPySpace with
  | '<' :: r =>
    (!(r.takeWhile isUpperLat).isEmpty) &&
      (match (r.dropWhile isUpperLat).dropWhile (fun c => c ≠ '>') with
       | '>' :: rest => rest.all isPySpace
       | _ => false)
  | _ => false

/-- Matcher for `TAG_CLOSE = ^\s*</([A-Z]+)>\s*$`. -/
def tagCloseMatch (l : List Char) : Bool :=
  match l.dropWhile isPySpace with
  | '<' :: '/' :: r =>
    (!(r.takeWhile isUpperLat).isEmpty) &&
      (match r.dropWhile isUpperLat with
       | '>' :: rest => rest.all isPySpace
       | _ => false)
  | _ => false

/-- The capture group `([A-Z]+)` of `TAG_OPEN` (meaningful on matching lines). -/
def tagNameOf (l : List Char) : List Char :=
  match l.dropWhile isPySpace with
  | '<' :: r => r.takeWhile isUpperLat
  | _ => []

/-- Model of `_is_tag_line` from post_filter.py. -/
def is_tag_lineL (l : List Char) : Bool := tagOpenMatch l || tagCloseMatch l

/-- String-level `_is_tag_line`. -/
def is_tag_line (s : String) : Bool := is_tag_lineL s.data

/-- Character class of `re.findall(r"[A-Za-zА-Яа-яЁё0-9_-]+", line)`. -/
def isWordChar (c : Char) : Bool :=
  isLat c || isCyr c || isDigit09 c || c = '_' || c = '-'

/-- Model of `_word_has_cyr_and_lat`. -/
def wordHasCyrAndLat (w : List Char) : Bool := w.any isCyr && w.any isLat

/-- Matcher for `re.search(r"[А-Яа-яЁё]+-[А-Яа-яЁё]+[А-Яа-яЁё]*", line)`:
the pattern matches somewhere iff some Cyrillic letter is immediately followed
by `-` immediately followed by a Cyrillic letter. -/
def hasCyrHyphenCyr : List Char → Bool
  | [] => false
  | a :: rest =>
    (match rest with
     | b :: c :: _ => isCyr a && b = '-' && isCyr c
     | _ => false) || hasCyrHyphenCyr rest

/-- Model of Python's substring test `pat in s`: `pat` is a prefix of some
suffix of `s` (the empty pattern is contained in every string). -/
def containsSub : List Char → List Char → Bool
  | [], pat => pat.isEmpty
  | s@(_ :: cs), pat => pat.isPrefixOf s || containsSub cs pat

/-- Model of the `FilterConfig` dataclass.  The two integer fields are
non-negative in every use the claims quantify over, so they are `Nat`. -/
structure FilterConfig where
  min_words_per_line : Nat := 3
  max_same_line_repeats : Nat := 2
  drop_latin_lines : Bool := true
  drop_mixed_cyr_lat_words : Bool := true
  keep_tag_lines : Bool := true
  collapse_whitespace : Bool := true
deriving DecidableEq, Repr

/-- Result of processing one raw line through the per-line filters of
`clean_lines` (everything before the consecutive-repeat tracker). -/
inductive LineClass where
  | drop : LineClass
  | tagKeep : String → LineClass
  | contentKeep : String → LineClass
deriving DecidableEq, Repr

/-- The character list `"по-преж".data`. -/
def poPrezh : List Char := "по-преж".data

/-- The character list `"по-прежнему".data`. -/
def poPrezhnemu : List Char := "по-прежнему".data

/-- The filter chain of `clean_lines` (post_filter.py lines 50-73) on the
stripped (and, when configured, collapsed) line `line`: keep tag lines, drop
Latin lines, drop lines with mixed-script words, drop the `по-преж` glitch,
drop short lines. -/
def classifyLine (cfg : FilterConfig) (line : List Char) : LineClass :=
  if cfg.keep_tag_lines && is_tag_lineL line then .tagKeep (String.mk line)
  else if cfg.drop_latin_lines && line.any isLat then .drop
  else if cfg.drop_mixed_cyr_lat_words &&
      (splitRuns isWordChar line).any wordHasCyrAndLat then .drop
  else if hasCyrHyphenCyr line && containsSub line poPrezh &&
      !containsSub line poPrezhnemu then .drop
  else if (pySplit line).length < cfg.min_words_per_line then .drop
  else .contentKeep (String.mk line)

/-- Per-line part of `clean_lines` (post_filter.py lines 41-73): strip, drop
empties, collapse whitespace, then the filter chain. -/
def processLine (cfg : FilterConfig) (raw : String) : LineClass :=
  let line := stripList raw.data
  if line = [] then .drop
  else classifyLine cfg (if cfg.collapse_whitespace then collapseWs line else line)

/-- The loop of `clean_lines` (post_filter.py lines 36-86): `acc` is the
reversed output, `lastLine`/`lastCount` the consecutive-repeat tracker. -/
def cleanLinesGo (cfg : FilterConfig) :
    List String → List String → Option String → Nat → List String
  | [], acc, _, _ => acc.reverse
  | raw :: rest, acc, lastLine, lastCount =>
    match processLine cfg raw with
    | .drop => cleanLinesGo cfg rest acc lastLine lastCount
    | .tagKeep l => cleanLinesGo cfg rest (l :: acc) (some l) 0
    | .contentKeep l =>
      if lastLine = some l then
        if lastCount + 1 ≥ cfg.max_same_line_repeats then
          cleanLinesGo cfg rest acc lastLine (lastCount + 1)
        else
          cleanLinesGo cfg rest (l :: acc) lastLine (lastCount + 1)
      else
        cleanLinesGo cfg rest (l :: acc) (some l) 0

/-- Model of `clean_lines(lines, cfg)`. -/
def clean_lines (lines : List String) (cfg : FilterConfig) : List String :=
  cleanLinesGo cfg lines [] none 0

/-- String-level `str.strip()`. -/
def pyStripS (s : String) : String := String.mk (stripList s.data)

/-- String-level `str.splitlines()`. -/
def splitlinesS (s : String) : List String := (splitlinesList s.data).map String.mk

/-- String-level `sep.join(...)`. -/
def joinS (sep : String) (ls : List String) : String :=
  String.mk (joinSep sep.data (ls.map String.data))

/-- String-level `str.split()`. -/
def pySplitS (s : String) : List String := (pySplit s.data).map String.mk

/-- Number of matches of `CYR.findall(s)`. -/
def countCyrS (s : String) : Nat := s.data.countP isCyr

/-- Number of matches of `LAT.findall(s)`. -/
def countLatS (s : String) : Nat := s.data.countP isLat

/-- Model of `extract_tagged_block` (post_filter.py lines 89-109); returns
`(tag, open_line, close_line)`, empty strings when not found.  The
`rstrip("\n")` of the source is a no-op after `splitlines()`. -/
def extract_tagged_block (text : String) : String × String × String :=
  let lines := (splitlinesS text).filter (fun ln => pyStripS ln ≠ "")
  let o := lines.find? (fun ln => tagOpenMatch (pyStripS ln).data)
  let c := lines.reverse.find? (fun ln => tagCloseMatch (pyStripS ln).data)
  (match o with
   | some ln => String.mk (tagNameOf (pyStripS ln).data)
   | none => "",
   match o with
   | some ln => pyStripS ln
   | none => "",
   match c with
   | some ln => pyStripS ln
   | none => "")

/-- The list of lines built by `clean_section_text` (post_filter.py lines
112-124) just before the final join: the cleaned lines with tag repair. -/
def clean_section_lines (text : String) (cfg : FilterConfig) : List String :=
  let cleaned := clean_lines (splitlinesS text) cfg
  let toc := extract_tagged_block text
  if toc.1 ≠ "" then
    let c1 := match cleaned with
      | [] => [toc.2.1]
      | x :: _ => if tagOpenMatch x.data then cleaned else toc.2.1 :: cleaned
    match c1.getLast? with
    | none => c1 ++ [toc.2.2]
    | some x => if tagCloseMatch x.data then c1 else c1 ++ [toc.2.2]
  else cleaned

/-- Model of `clean_section_text(text, cfg)`. -/
def clean_section_text (text : String) (cfg : FilterConfig) : String :=
  pyStripS (joinS "\n" (clean_section_lines text cfg))

/-- The `lines` local of `score_section`: stripped, non-empty split lines. -/
def score_lines (text : String) : List String :=
  ((splitlinesS text).map pyStripS).filter (fun l => l ≠ "")

/-- The `content` local of `score_section`: lines that are not tag lines. -/
def content_of (lines : List String) : List String :=
  lines.filter (fun l => !is_tag_line l)

/-- Model of `_get_content_lines` (post_filter.py lines 181-187). -/
def get_content_lines (text : String) : List String :=
  ((splitlinesS text).map pyStripS).filter (fun l => l ≠ "" && !is_tag_line l)

/-- The `cyr_ratio` component: `cyr / max(1, cyr + lat)` over the joined
content. -/
def cyrRatioQ (joined : String) : ℚ :=
  (countCyrS joined : ℚ) / ((max 1 (countCyrS joined + countLatS joined) : Nat) : ℚ)

/-- The `reps` local: multiplicities of the distinct content lines, sorted
descending (`sorted(cnt.values(), reverse=True)`; `Counter` iterates in
first-occurrence order). -/
def repsOf (content : List String) : List Nat :=
  List.insertionSort (fun a b => a ≥ b) (content.dedup.map (fun l => content.count l))

/-- Model of `_ngrams(words, n)` / the `grams` local of `score_section`. -/
def ngramsS (ws : List String) (n : Nat) : List String :=
  (List.range (ws.length + 1 - n)).map (fun i => joinS " " ((ws.drop i).take n))

/-- The `rep_grams` local: `sum(v-1 for v in gcnt.values() if v > 1)`;
entries with `v = 1` contribute `0` through the truncated subtraction. -/
def repGramsCount (grams : List String) : Nat :=
  (grams.dedup.map (fun g => grams.count g - 1)).sum

/-- The `gram_penalty` local: `rep_grams / max(1, len(grams))`. -/
def gramPenaltyQ (grams : List String) : ℚ :=
  (repGramsCount grams : ℚ) / ((max 1 grams.length : Nat) : ℚ)

/-- The `avg_len` local: mean word count per content line. -/
def avgLenQ (content : List String) : ℚ :=
  ((content.map (fun x => (pySplitS x).length)).sum : ℚ) /
    ((max 1 content.length : Nat) : ℚ)

/-- The `uniq_line_ratio` local: distinct lines over total lines. -/
def uniqRatioQ (content : List String) : ℚ :=
  (content.dedup.length : ℚ) / ((max 1 content.length : Nat) : ℚ)

/-- Body of `score_section` (post_filter.py lines 136-178) on a non-empty
content-line list. -/
def score_contentQ (content : List String) : ℚ :=
  let joined := joinS " " content
  let lat := countLatS joined
  let reps := repsOf content
  let max_rep : Nat := reps.headD 1
  let top3 : Nat := (reps.take 3).sum
  let grams := ngramsS (pySplitS joined) 4
  let avg_len := avgLenQ content
  let uniq := uniqRatioQ content
  4 * cyrRatioQ joined + (0.10 : ℚ) * content.length + (0.20 : ℚ) * avg_len
    + 2 * uniq
    - 4 * ((max_rep - 2 : Nat) : ℚ)
    - (0.8 : ℚ) * ((top3 - 8 : Nat) : ℚ)
    - (3.5 : ℚ) * gramPenaltyQ grams
    - (if uniq < (0.4 : ℚ) then 5 else 0)
    - (if (20 : ℚ) < avg_len then 2 * (avg_len - 20) else 0)
    - (if 0 < lat then 10 else 0)

/-- Model of `score_section(text)`; `-1e9` is the sentinel for empty
line/content lists. -/
def score_section (text : String) : ℚ :=
  let lines := score_lines text
  if lines = [] then -1000000000
  else
    let content := content_of lines
    if content = [] then -1000000000 else score_contentQ content

/-- The `overlap_ratio` of `score_section_in_context`:
`len(cur_set & prev_set) / len(cur_set)`, guarded by `if cur_set`. -/
def overlapRatioQ (text prev : String) : ℚ :=
  let curSet := (get_content_lines text).dedup
  let prevSet := (get_content_lines prev).dedup
  if curSet ≠ [] then
    ((curSet.filter (fun l => l ∈ prevSet)).length : ℚ) / (curSet.length : ℚ)
  else 0

/-- The `gram_overlap` of `score_section_in_context`:
`len(cur_4g & prev_4g) / len(cur_4g)`, guarded by `if cur_4g`. -/
def gramOverlapQ (text prev : String) : ℚ :=
  let cur4 := (ngramsS (pySplitS (joinS " " (get_content_lines text))) 4).dedup
  let prev4 := (ngramsS (pySplitS (joinS " " (get_content_lines prev))) 4).dedup
  if cur4 ≠ [] then
    ((cur4.filter (fun g => g ∈ prev4)).length : ℚ) / (cur4.length : ℚ)
  else 0

/-- Model of `score_section_in_context(text, prev_sections_text)`
(post_filter.py lines 194-236).  `not prev or not prev.strip()` is equivalent
to `prev.strip() == ""`. -/
def score_section_in_context (text prev : String) : ℚ :=
  let base := score_section text
  if pyStripS prev = "" then base
  else
    let cur := get_content_lines text
    let prevL := get_content_lines prev
    if cur = [] ∨ prevL = [] then base
    else
      let overlapRatio := overlapRatioQ text prev
      let base1 := if 0 < overlapRatio then base - 8 * overlapRatio else base
      let gramOverlap := gramOverlapQ text prev
      if 0 < gramOverlap then base1 - 6 * gramOverlap else base1

/-- The score used by `choose_best_candidate` for one candidate: context-aware
when the context (Python truthiness: non-empty) is present. -/
def scoreForContext (context : String) (c : String) : ℚ :=
  if context ≠ "" then score_section_in_context c context else score_section c

/-- The loop of `choose_best_candidate` (generate_sections.py lines 101-112);
`best`/`bs` start as `""` and `-1e18`, updates on strictly larger score. -/
def chooseGo (context : String) : List String → String → ℚ → String × ℚ
  | [], best, bs => (best, bs)
  | c :: rest, best, bs =>
    let s := scoreForContext context c
    if bs < s then chooseGo context rest c s else chooseGo context rest best bs

/-- Model of `choose_best_candidate(cands, context)`. -/
def choose_best_candidate (cands : List String) (context : String) :
    String × ℚ :=
  chooseGo context cands "" (-1000000000000000000)

/-- Model of `generate_section_with_retries` (generate_sections.py lines
115-156) with the opaque generation client abstracted by the list `raws` of
raw strings it returned (one per attempt): each attempt is cleaned, the best
candidate is chosen against the context, and the result is stripped. -/
def generate_section_with_retries (raws : List String) (context : String)
    (cfg : FilterConfig) : String :=
  pyStripS (choose_best_candidate (raws.map (fun out => clean_section_text out cfg)) context).1

/-- One parsed element of the structure expression (the dicts appended to
`plan` in `main`). -/
structure SectionSpec where
  type : String
  speaker : String
  index : Option Nat
deriving DecidableEq, Repr

/-- Model of `section_open_tag`. -/
def section_open_tag (secType speaker : String) (index : Option Nat) : String :=
  match index with
  | some i =>
    if secType = "VERSE" then
      "<VERSE index=" ++ toString i ++ " speaker=" ++ speaker ++ ">"
    else "<" ++ secType ++ " speaker=" ++ speaker ++ ">"
  | none => "<" ++ secType ++ " speaker=" ++ speaker ++ ">"

/-- Model of `section_close_tag`. -/
def section_close_tag (secType : String) : String := "</" ++ secType ++ ">"

/-- The `inner` count of `main` (generate_sections.py line 232): non-blank
lines whose stripped form does not start with `<`. -/
def innerLinesCount (secText : String) : Nat :=
  ((splitlinesS secText).filter
    (fun ln => pyStripS ln ≠ "" && !(List.isPrefixOf ['<'] (pyStripS ln).data))).length

/-- One iteration of the plan loop of `main` (generate_sections.py lines
210-252): first-pass selection, then the OUTRO escalation re-run.  `raws1`
are the raw generation outputs of the first pass, `raws2` those of the
escalation re-run; the second component counts the escalation re-runs
performed. -/
def orchestrate_step (step : SectionSpec) (raws1 raws2 : List String)
    (context : String) (cfg : FilterConfig) : String × Nat :=
  let s1 := generate_section_with_retries raws1 context cfg
  if step.type = "OUTRO" ∧ innerLinesCount s1 < 4 then
    (generate_section_with_retries raws2 context cfg, 1)
  else (s1, 0)

/-- The numeric command-line arguments of `main` that feed the sampling
parameters (floats as `ℚ`, ints as `Int`); defaults as in the source. -/
structure GenArgs where
  max_tokens_section : Int := 260
  temp : ℚ := 0.8
  top_p : ℚ := 0.9
  top_k : Int := 40
  min_p : ℚ := 0.06
  seed : Int := 42
  tries : Int := 3
deriving DecidableEq, Repr

/-- The sampling parameters of one `generate_section_with_retries` call. -/
structure GenParams where
  max_tokens : Int
  temp : ℚ
  top_p : ℚ
  top_k : Int
  min_p : ℚ
  seed : Int
  tries : Int
deriving DecidableEq, Repr

/-- Parameters of the first-pass call for plan step `i`
(generate_sections.py lines 213-229). -/
def firstPassParams (a : GenArgs) (i : Nat) : GenParams :=
  ⟨a.max_tokens_section, a.temp, a.top_p, a.top_k, a.min_p,
   a.seed + (i : Int) * 100, a.tries⟩

/-- Parameters of the OUTRO escalation re-run for plan step `i`
(generate_sections.py lines 234-250). -/
def escalationParams (a : GenArgs) (i : Nat) : GenParams :=
  ⟨max 300 a.max_tokens_section, min (0.85 : ℚ) (a.temp + 0.1),
   min (0.92 : ℚ) (a.top_p + 0.04), max 60 a.top_k,
   max (0.05 : ℚ) (a.min_p - 0.02), a.seed + (i : Int) * 100 + 999, max 3 a.tries⟩

/-- The seeds of the individual attempts of a call: `seed + t` for
`t in range(tries)`. -/
def attemptSeeds (p : GenParams) : List Int :=
  (List.range p.tries.toNat).map (fun (t : Nat) => p.seed + (t : Int))

/-- Model of Python `s.split(sep)` for a one-character separator: empty pieces
are kept and `"".split(sep) == [""]`. -/
def splitOnChar (sep : Char) : List Char → List (List Char)
  | [] => [[]]
  | c :: cs =>
    if c = sep then [] :: splitOnChar sep cs
    else
      match splitOnChar sep cs with
      | [] => [[c]]
      | h :: t => (c :: h) :: t

/-- Model of Python `str.upper()` restricted to ASCII and Russian Cyrillic
(the only scripts the pipeline handles). -/
def pyUpperChar (c : Char) : Char :=
  if 'a' ≤ c && c ≤ 'z' then Char.ofNat (c.toNat - 32)
  else if 'а' ≤ c && c ≤ 'я' then Char.ofNat (c.toNat - 32)
  else if c = 'ё' then 'Ё' else c

/-- Model of Python `str.lower()` restricted to ASCII and Russian Cyrillic. -/
def pyLowerChar (c : Char) : Char :=
  if 'A' ≤ c && c ≤ 'Z' then Char.ofNat (c.toNat + 32)
  else if 'А' ≤ c && c ≤ 'Я' then Char.ofNat (c.toNat + 32)
  else if c = 'Ё' then 'ё' else c

/-- The structure-parsing loop of `main` (generate_sections.py lines 179-196):
empty elements are skipped, an element without both delimiters raises
`SystemExit`, the type is upper-cased, the speaker lower-cased, and VERSE
elements get a running index. -/
def parseParts : List (List Char) → Nat → Except String (List SectionSpec)
  | [], _ => .ok []
  | p :: rest, vidx =>
    if p = [] then parseParts rest vidx
    else if ¬ ('(' ∈ p ∧ ')' ∈ p) then
      .error ("Не понял элемент структуры: " ++ String.mk p)
    else
      let secType := String.mk ((stripList (p.takeWhile (fun c => c ≠ '('))).map pyUpperChar)
      let speaker := String.mk
        ((stripList (((p.dropWhile (fun c => c ≠ '(')).drop 1).takeWhile (fun c => c ≠ ')'))).map pyLowerChar)
      let vidx' := if secType = "VERSE" then vidx + 1 else vidx
      let idx : Option Nat := if secType = "VERSE" then some vidx' else none
      match parseParts rest vidx' with
      | .error e => .error e
      | .ok l => .ok (⟨secType, speaker, idx⟩ :: l)

/-- Model of the structure parsing of `main`:
`parts = [p.strip() for p in args.structure.split(">")]` then the loop. -/
def parse_structure (s : String) : Except String (List SectionSpec) :=
  parseParts ((splitOnChar '>' s.data).map stripList) 0

/-- The per-step body of the plan loop of `main`, reusing `orchestrate_step`;
`oracle k` supplies the raw generation outputs of call number `k` (two slots
per step: first pass and escalation). -/
def runPlanGo (oracle : Nat → List String) (cfg : FilterConfig) :
    List SectionSpec → Nat → List String → List String
  | [], _, gen => gen
  | step :: rest, i, gen =>
    let context := joinS "\n\n" (gen.drop (gen.length - 2))
    let sec := (orchestrate_step step (oracle (2 * i)) (oracle (2 * i + 1)) context cfg).1
    runPlanGo oracle cfg rest (i + 1) (gen ++ [sec])

/-- Model of `main` up to the output artifact: parsing aborts with
`SystemExit` before any generation call; otherwise the plan runs and the
finalized sections are returned (the oracle abstracts the generation client). -/
def main_run (structureExpr : String) (oracle : Nat → List String)
    (cfg : FilterConfig) : Except String (List String) :=
  match parse_structure structureExpr with
  | .error e => .error e
  | .ok plan => .ok (runPlanGo oracle cfg plan 0 [])

/-- First line of a string (empty string for the empty text). -/
def firstLineS (s : String) : String := (splitlinesS s).headD ""

/-- Last line of a string (empty string for the empty text). -/
def lastLineS (s : String) : String := (splitlinesS s).getLastD ""

/-- Concrete raw generation output for the C3 counterexample: four non-tag
content lines (the fourth starts with `<` without being a structural tag),
wrapped in OUTRO tags. -/
def c3Text : String :=
  "<OUTRO speaker=alekhin>\nраз два три\nчетыре пять шесть\nсемь восемь девять\n<три слова тут\n</OUTRO>"

/-- Concrete argument set for the C5 counterexample: a token budget of 400
already exceeds the escalation floor of 300. -/
def c5Args : GenArgs := { max_tokens_section := 400 }

/-- Length of the constant prefix `l, l, l, ...` of a list. -/
def headRun (l : String) : List String → Nat
  | [] => 0
  | x :: xs => if x = l then headRun l xs + 1 else 0

/-- Concrete raw text exercising the tag-repair path of `clean_section_text`:
its open tag line carries a double space and is preceded by a content line,
so repair prepends the original (uncollapsed) tag line. -/
def c8Text : String := "ааа ббб ввв\n<VERSE  s>\n</VERSE>"

/-- One raw line, with its terminating newline, of the highly repetitive
candidate used against the selector's `-1e18` sentinel. -/
def lBig : List Char := "ааа ббб ввв".data ++ ['\n']

/-- The repeat count of the big candidate. -/
def nBig : Nat := 10 ^ 18

/-- A candidate text of `10^18` identical content lines: its repeat penalty
drives `score_section` below the selector's initial `best_score = -1e18`, so
the selector keeps its initial `best = ""`. -/
def sBig : String := String.mk (List.join (List.replicate nBig lBig))

/-- The duplicated line of the C7 counterexample. -/
def c7L : String := "мо не ле"

/-- Content lines before the insertion point of the C7 counterexample: a
triple `у` block keeps the maximal multiplicity at 3, the singletons keep the
uniqueness ratio high and all 4-grams distinct. -/
def c7A : List String :=
  ["мо не ле", "у", "у", "у", "ба", "ва", "га", "да", "жа", "за", "ка", "ла", "ма"]

/-- Content lines after the insertion point of the C7 counterexample. -/
def c7B : List String :=
  ["на", "па", "ра", "са", "та", "фа", "ха", "ца", "ча", "ша", "ща"]

/-- C7 counterexample text: `мо не ле` appears twice (non-adjacently). -/
def c7t : String :=
  "мо не ле\nу\nу\nу\nба\nва\nга\nда\nжа\nза\nка\nла\nма\nмо не ле\nна\nпа\nра\nса\nта\nфа\nха\nца\nча\nша\nща"

/-- C7 counterexample text with a third, consecutive occurrence of
`мо не ле` inserted. -/
def c7t2 : String :=
  "мо не ле\nу\nу\nу\nба\nва\nга\nда\nжа\nза\nка\nла\nма\nмо не ле\nмо не ле\nна\nпа\nра\nса\nта\nфа\nха\nца\nча\nша\nща"

/-!
## Theorems

### C1: the consecutive-repeat cap of `clean_lines`
-/

theorem headRun_of_replicate_prefix {l : String} {k : Nat} {xs : List String}
    (h : List.replicate k l <+: xs) : k ≤ headRun l xs := by
  induction k generalizing xs with
  | zero => exact Nat.zero_le _
  | succ n ih =>
    rw [List.replicate_succ] at h
    cases xs with
    | nil => simpa using h.length_le
    | cons x t =>
      rw [List.cons_prefix_cons] at h
      obtain ⟨rfl, h2⟩ := h
      simp only [headRun, if_pos rfl]
      exact Nat.succ_le_succ (ih h2)

theorem replicate_infix_cons_elim {l x : String} {m : Nat} {acc : List String}
    (h : List.replicate (m + 1) l <:+: x :: acc) :
    List.replicate (m + 1) l <:+: acc ∨ (x = l ∧ List.replicate m l <+: acc) := by
  rcases List.infix_cons_iff.1 h with h1 | h2
  · rw [List.replicate_succ, List.cons_prefix_cons] at h1
    exact Or.inr ⟨h1.1.symm, h1.2⟩
  · exact Or.inl h2

theorem replicate_infix_reverse {α : Type} {k : Nat} {a : α} {xs : List α} :
    List.replicate k a <:+: xs.reverse ↔ List.replicate k a <:+: xs := by
  conv_lhs => rw [← List.reverse_replicate k a]
  exact List.reverse_infix

theorem headRun_cons_self {l : String} {xs : List String} :
    headRun l (l :: xs) = headRun l xs + 1 := by
  simp [headRun]

theorem headRun_cons_ne {l x : String} {xs : List String} (h : x ≠ l) :
    headRun l (x :: xs) = 0 := by
  simp [headRun, h]

theorem classifyLine_tagKeep_inv {cfg : FilterConfig} {w : List Char} {t : String}
    (h : classifyLine cfg w = .tagKeep t) :
    t = String.mk w ∧ (cfg.keep_tag_lines && is_tag_line t) = true := by
  simp only [classifyLine] at h
  split_ifs at h <;> cases h
  rename_i hcond
  exact ⟨rfl, hcond⟩

theorem classifyLine_contentKeep_inv {cfg : FilterConfig} {w : List Char} {t : String}
    (h : classifyLine cfg w = .contentKeep t) :
    t = String.mk w ∧ (cfg.keep_tag_lines && is_tag_line t) = false := by
  simp only [classifyLine] at h
  split_ifs at h <;> cases h
  rename_i hcond _ _ _ _
  exact ⟨rfl, by simpa using hcond⟩

theorem processLine_eq_drop_of_empty {cfg : FilterConfig} {raw : String}
    (h0 : stripList raw.data = []) : processLine cfg raw = .drop := by
  simp only [processLine]
  rw [if_pos h0]

theorem processLine_eq_classify {cfg : FilterConfig} {raw : String}
    (h0 : stripList raw.data ≠ []) :
    processLine cfg raw =
      classifyLine cfg
        (if cfg.collapse_whitespace then collapseWs (stripList raw.data)
         else stripList raw.data) := by
  simp only [processLine]
  rw [if_neg h0]

theorem processLine_tagKeep_inv {cfg : FilterConfig} {raw : String} {t : String}
    (h : processLine cfg raw = .tagKeep t) :
    cfg.keep_tag_lines = true ∧ is_tag_line t = true := by
  by_cases h0 : stripList raw.data = []
  · rw [processLine_eq_drop_of_empty h0] at h
    cases h
  · rw [processLine_eq_classify h0] at h
    have := (classifyLine_tagKeep_inv h).2
    rw [Bool.and_eq_true] at this
    exact this

/-- Core invariant of the `clean_lines` loop: a line `l` that is not kept by
the tag path can never accumulate a run longer than
`max 1 max_same_line_repeats` (a single copy always enters, so the bound is
at least `1` even for a zero cap).  State: `acc` is the reversed output so
far, so runs at the front of `acc` are runs at the end of the output. -/
theorem cleanLinesGo_no_long_run (cfg : FilterConfig) (l : String)
    (hl : (cfg.keep_tag_lines && is_tag_line l) = false) :
    ∀ (lines acc : List String) (lastLine : Option String) (lastCount : Nat),
      ¬ List.replicate (max 1 cfg.max_same_line_repeats + 1) l <:+: acc →
      headRun l acc ≤ max 1 cfg.max_same_line_repeats →
      (lastLine = some l → headRun l acc ≤ lastCount + 1) →
      (lastLine ≠ some l → headRun l acc = 0) →
      ¬ List.replicate (max 1 cfg.max_same_line_repeats + 1) l <:+:
        cleanLinesGo cfg lines acc lastLine lastCount := by
  intro lines
  set m := cfg.max_same_line_repeats with hmdef
  set M := max 1 m with hMdef
  have hM1 : 1 ≤ M := le_max_left 1 m
  have hMm : m ≤ M := le_max_right 1 m
  induction lines with
  | nil =>
    intro acc lastLine lastCount hA _ _ _
    simpa only [cleanLinesGo, replicate_infix_reverse] using hA
  | cons raw rest ih =>
    intro acc lastLine lastCount hA hB hC hD
    cases hp : processLine cfg raw with
    | drop =>
      simp only [cleanLinesGo, hp]
      exact ih acc lastLine lastCount hA hB hC hD
    | tagKeep t =>
      simp only [cleanLinesGo, hp]
      have htag := processLine_tagKeep_inv hp
      have htl : t ≠ l := by
        intro he
        have h2 := htag.2
        rw [he] at h2
        rw [htag.1, h2] at hl
        simp at hl
      refine ih (t :: acc) (some t) 0 ?_ ?_ ?_ ?_
      · intro hcon
        rcases replicate_infix_cons_elim hcon with h' | ⟨he, _⟩
        · exact hA h'
        · exact htl he
      · rw [headRun_cons_ne htl]; exact Nat.zero_le _
      · intro he
        exact absurd (Option.some.inj he) htl
      · intro _
        exact headRun_cons_ne htl
    | contentKeep c =>
      simp only [cleanLinesGo, hp]
      by_cases hc : lastLine = some c
      · rw [if_pos hc]
        by_cases hcount : lastCount + 1 ≥ m
        · rw [if_pos hcount]
          refine ih acc lastLine (lastCount + 1) hA hB ?_ hD
          intro he
          exact le_trans (hC he) (Nat.le_succ _)
        · rw [if_neg hcount]
          by_cases hcl : c = l
          · subst hcl
            have hrun : headRun c acc ≤ lastCount + 1 := hC hc
            refine ih (c :: acc) lastLine (lastCount + 1) ?_ ?_ ?_ ?_
            · intro hcon
              rcases replicate_infix_cons_elim hcon with h' | ⟨_, hpre⟩
              · exact hA h'
              · have := headRun_of_replicate_prefix hpre
                omega
            · rw [headRun_cons_self]; omega
            · intro _
              rw [headRun_cons_self]; omega
            · intro he
              exact absurd hc he
          · refine ih (c :: acc) lastLine (lastCount + 1) ?_ ?_ ?_ ?_
            · intro hcon
              rcases replicate_infix_cons_elim hcon with h' | ⟨he, _⟩
              · exact hA h'
              · exact hcl he
            · rw [headRun_cons_ne hcl]; exact Nat.zero_le _
            · intro he
              rw [hc] at he
              exact absurd (Option.some.inj he) hcl
            · intro _
              exact headRun_cons_ne hcl
      · rw [if_neg hc]
        by_cases hcl : c = l
        · subst hcl
          have hz : headRun c acc = 0 := hD (fun he => hc he)
          refine ih (c :: acc) (some c) 0 ?_ ?_ ?_ ?_
          · intro hcon
            rcases replicate_infix_cons_elim hcon with h' | ⟨_, hpre⟩
            · exact hA h'
            · have := headRun_of_replicate_prefix hpre
              omega
          · rw [headRun_cons_self, hz]; omega
          · intro _
            rw [headRun_cons_self, hz]
          · intro he
            exact absurd rfl he
        · refine ih (c :: acc) (some c) 0 ?_ ?_ ?_ ?_
          · intro hcon
            rcases replicate_infix_cons_elim hcon with h' | ⟨he, _⟩
            · exact hA h'
            · exact hcl he
          · rw [headRun_cons_ne hcl]; exact Nat.zero_le _
          · intro he
            exact absurd (Option.some.inj he) hcl
          · intro _
            exact headRun_cons_ne hcl

/-- C1: for every list of raw input lines and every FilterConfig with
`max_same_line_repeats = m` (`m ≥ 1`), the output of `clean_lines` contains
no content line (tag lines excluded) occurring more than `m` times in an
unbroken consecutive run (i.e. `m + 1` adjacent copies never form an infix
of the output); the `m = 2` instance of the claim follows by instantiation. -/
theorem C1_clean_lines_repeat_cap (lines : List String) (cfg : FilterConfig)
    (hm : 1 ≤ cfg.max_same_line_repeats) (l : String)
    (hl : is_tag_line l = false) :
    ¬ List.replicate (cfg.max_same_line_repeats + 1) l <:+: clean_lines lines cfg := by
  have hmax : max 1 cfg.max_same_line_repeats = cfg.max_same_line_repeats :=
    Nat.max_eq_right hm
  have h := cleanLinesGo_no_long_run cfg l (by simp [hl]) lines [] none 0
    (by
      intro hcon
      have := hcon.length_le
      simp at this)
    (by simp [headRun])
    (by intro he; cases he)
    (by intro _; rfl)
  rwa [hmax] at h

/-- Witness for C1: three consecutive copies of a content line are cut to two
by the default configuration (`max_same_line_repeats = 2`). -/
theorem C1_witness :
    ¬ List.replicate 3 "ааа ббб ввв" <:+:
      clean_lines ["ааа ббб ввв", "ааа ббб ввв", "ааа ббб ввв"] {} :=
  C1_clean_lines_repeat_cap _ {} (by decide) _ (by decide)

/-!
### Normalization lemmas: `stripList` and `collapseWs` fix their own output
-/

theorem collapseWs_nil : collapseWs [] = [] := rfl

theorem collapseGo_true_eq (cs : List Char) :
    collapseGo true cs = collapseWs (cs.dropWhile isPySpace) := by
  induction cs with
  | nil => rfl
  | cons c cs ih =>
    by_cases hc : isPySpace c = true
    · rw [List.dropWhile_cons_of_pos hc, ← ih]
      simp [collapseGo, hc]
    · have hc' : isPySpace c = false := by simpa using hc
      rw [List.dropWhile_cons_of_neg (by simp [hc'])]
      simp [collapseGo, collapseWs, hc']

theorem collapseWs_cons_pos {c : Char} {cs : List Char} (h : isPySpace c = true) :
    collapseWs (c :: cs) = ' ' :: collapseWs (cs.dropWhile isPySpace) := by
  rw [← collapseGo_true_eq]
  simp [collapseWs, collapseGo, h]

theorem collapseWs_cons_neg {c : Char} {cs : List Char} (h : isPySpace c = false) :
    collapseWs (c :: cs) = c :: collapseWs cs := by
  simp [collapseWs, collapseGo, h]

/-- Induction principle matching the whitespace-run structure of
`collapseWs`. -/
theorem collapseWs_induction (motive : List Char → Prop)
    (h0 : motive [])
    (h1 : ∀ c cs, isPySpace c = true → motive (cs.dropWhile isPySpace) →
      motive (c :: cs))
    (h2 : ∀ c cs, isPySpace c = false → motive cs → motive (c :: cs)) :
    ∀ l, motive l := by
  have H : ∀ (n : Nat) (l : List Char), l.length = n → motive l := by
    intro n
    induction n using Nat.strong_induction_on with
    | _ n ih =>
      intro l hn
      cases l with
      | nil => exact h0
      | cons c cs =>
        simp only [List.length_cons] at hn
        by_cases hc : isPySpace c = true
        · refine h1 c cs hc (ih (cs.dropWhile isPySpace).length ?_ _ rfl)
          have : (cs.dropWhile isPySpace).length ≤ cs.length :=
            (List.dropWhile_sublist isPySpace).length_le
          omega
        · exact h2 c cs (by simpa using hc) (ih cs.length (by omega) cs rfl)
  exact fun l => H l.length l rfl

theorem collapseWs_ne_nil {l : List Char} (h : l ≠ []) : collapseWs l ≠ [] := by
  cases l with
  | nil => exact absurd rfl h
  | cons c cs =>
    by_cases hc : isPySpace c = true
    · rw [collapseWs_cons_pos hc]; simp
    · rw [collapseWs_cons_neg (by simpa using hc)]; simp

theorem collapseWs_head_not_space {l : List Char}
    (h : ∀ c, l.head? = some c → isPySpace c = false) :
    ∀ c, (collapseWs l).head? = some c → isPySpace c = false := by
  cases l with
  | nil =>
    intro c hc
    rw [collapseWs_nil] at hc
    simp at hc
  | cons a cs =>
    have ha := h a rfl
    rw [collapseWs_cons_neg ha]
    intro c hc
    simp only [List.head?_cons, Option.some.injEq] at hc
    rwa [← hc]

theorem getLast?_cons_ne_nil {α : Type} {a : α} {l : List α} (h : l ≠ []) :
    (a :: l).getLast? = l.getLast? := by
  cases l with
  | nil => exact absurd rfl h
  | cons b bs => exact List.getLast?_cons_cons

theorem getLast?_of_suffix {α : Type} {l₁ l₂ : List α} {e : α}
    (hs : l₁ <:+ l₂) (he : l₁.getLast? = some e) : l₂.getLast? = some e := by
  obtain ⟨ys, rfl⟩ := List.getLast?_eq_some_iff.1 he
  obtain ⟨t, rfl⟩ := hs
  exact List.getLast?_eq_some_iff.2 ⟨t ++ ys, by simp⟩

theorem collapseWs_getLast_not_space :
    ∀ (l : List Char), (∀ c, l.getLast? = some c → isPySpace c = false) →
      ∀ c, (collapseWs l).getLast? = some c → isPySpace c = false := by
  intro l
  induction l using collapseWs_induction with
  | h0 =>
    intro _ c hc
    rw [collapseWs_nil] at hc
    simp at hc
  | h1 a cs ha ih =>
    intro hl c hc
    rw [collapseWs_cons_pos ha] at hc
    rcases hD : collapseWs (cs.dropWhile isPySpace) with _ | ⟨d, ds⟩
    · exfalso
      have hDnil : cs.dropWhile isPySpace = [] := by
        by_contra hne
        exact collapseWs_ne_nil hne hD
      have hall : ∀ x ∈ cs, isPySpace x = true := List.dropWhile_eq_nil_iff.1 hDnil
      cases hcs : cs with
      | nil =>
        subst hcs
        exact absurd (hl a (by simp)) (by simp [ha])
      | cons b bs =>
        subst hcs
        obtain ⟨d0, hd0⟩ : ∃ d0, (b :: bs).getLast? = some d0 :=
          ⟨(b :: bs).getLast (by simp), List.getLast?_eq_getLast _ _⟩
        have hmem := List.mem_of_getLast?_eq_some hd0
        have hns : isPySpace d0 = false :=
          hl d0 (by rw [List.getLast?_cons_cons]; exact hd0)
        exact absurd (hall d0 hmem) (by simp [hns])
    · rw [hD, List.getLast?_cons_cons] at hc
      refine ih ?_ c (by rw [hD]; exact hc)
      intro e he
      have hcs : (a :: cs).getLast? = some e :=
        getLast?_of_suffix ((List.dropWhile_suffix isPySpace).trans (List.suffix_cons a cs)) he
      exact hl e hcs
  | h2 a cs ha ih =>
    intro hl c hc
    have ha' : isPySpace a = false := ha
    rw [collapseWs_cons_neg ha'] at hc
    rcases hR : collapseWs cs with _ | ⟨d, ds⟩
    · rw [hR] at hc
      simp only [List.getLast?_singleton, Option.some.injEq] at hc
      rwa [← hc]
    · rw [hR, List.getLast?_cons_cons] at hc
      refine ih ?_ c (by rw [hR]; exact hc)
      intro e he
      have hcs : cs ≠ [] := by
        intro h0
        rw [h0, collapseWs_nil] at hR
        cases hR
      exact hl e (by rw [getLast?_cons_ne_nil hcs]; exact he)

theorem collapseWs_idem : ∀ (l : List Char), collapseWs (collapseWs l) = collapseWs l := by
  intro l
  induction l using collapseWs_induction with
  | h0 => rw [collapseWs_nil, collapseWs_nil]
  | h1 a cs ha ih =>
    rw [collapseWs_cons_pos ha, collapseWs_cons_pos (by rfl : isPySpace ' ' = true)]
    congr 1
    rw [show (collapseWs (cs.dropWhile isPySpace)).dropWhile isPySpace
          = collapseWs (cs.dropWhile isPySpace) from ?_]
    · exact ih
    · rcases hR : collapseWs (cs.dropWhile isPySpace) with _ | ⟨d, ds⟩
      · rfl
      · have hd : isPySpace d = false := by
          refine collapseWs_head_not_space ?_ d (by rw [hR]; rfl)
          intro c hc
          have := List.head?_dropWhile_not isPySpace cs
          rw [hc] at this
          exact this
        rw [List.dropWhile_cons_of_neg (by simp [hd])]
  | h2 a cs ha ih =>
    rw [collapseWs_cons_neg ha, collapseWs_cons_neg ha, ih]

theorem stripList_eq_self {l : List Char}
    (h1 : ∀ c, l.head? = some c → isPySpace c = false)
    (h2 : ∀ c, l.getLast? = some c → isPySpace c = false) :
    stripList l = l := by
  unfold stripList
  have hd : l.dropWhile isPySpace = l := by
    cases l with
    | nil => rfl
    | cons a t => exact List.dropWhile_cons_of_neg (by simp [h1 a rfl])
  rw [hd, List.rdropWhile_eq_self_iff]
  intro hl
  simp [h2 _ (List.getLast?_eq_getLast l hl)]

theorem stripList_head_not_space (l : List Char) :
    ∀ c, (stripList l).head? = some c → isPySpace c = false := by
  intro c hc
  have hne : stripList l ≠ [] := by
    intro h0
    rw [h0] at hc
    cases hc
  unfold stripList at hc hne
  have hpre : (l.dropWhile isPySpace).rdropWhile isPySpace <+: l.dropWhile isPySpace :=
    List.rdropWhile_prefix isPySpace (l.dropWhile isPySpace)
  have hAne : l.dropWhile isPySpace ≠ [] := hpre.ne_nil hne
  rw [List.head?_eq_head hne] at hc
  cases hc
  rw [hpre.head hne]
  exact List.head_dropWhile_not isPySpace l hAne

theorem stripList_getLast_not_space (l : List Char) :
    ∀ c, (stripList l).getLast? = some c → isPySpace c = false := by
  intro c hc
  have hne : stripList l ≠ [] := by
    intro h0
    rw [h0] at hc
    cases hc
  unfold stripList at hc hne
  have := List.rdropWhile_last_not isPySpace (l.dropWhile isPySpace) hne
  rw [List.getLast?_eq_getLast _ hne] at hc
  cases hc
  simpa using this

theorem stripList_stripList (l : List Char) : stripList (stripList l) = stripList l :=
  stripList_eq_self (stripList_head_not_space l) (stripList_getLast_not_space l)

theorem stripList_collapse_stripList (l : List Char) :
    stripList (collapseWs (stripList l)) = collapseWs (stripList l) :=
  stripList_eq_self (collapseWs_head_not_space (stripList_head_not_space l))
    (collapseWs_getLast_not_space _ (stripList_getLast_not_space l))

/-- A line kept by `clean_lines` (tag path or content path) is re-classified
identically when fed back through `processLine`: the per-line processing is
idempotent. -/
theorem processLine_self {cfg : FilterConfig} {raw t : String}
    (h : processLine cfg raw = .tagKeep t ∨ processLine cfg raw = .contentKeep t) :
    processLine cfg t = processLine cfg raw := by
  have h1 : stripList raw.data ≠ [] := by
    intro h0
    rcases h with h | h <;> rw [processLine_eq_drop_of_empty h0] at h <;> cases h
  have hPr := @processLine_eq_classify cfg raw h1
  set w := if cfg.collapse_whitespace then collapseWs (stripList raw.data)
           else stripList raw.data with hw
  have hwne : w ≠ [] := by
    rw [hw]
    by_cases hcol : cfg.collapse_whitespace = true
    · rw [if_pos hcol]; exact collapseWs_ne_nil h1
    · rw [if_neg hcol]; exact h1
  have hws : stripList w = w := by
    by_cases hcol : cfg.collapse_whitespace = true
    · rw [hw, if_pos hcol]; exact stripList_collapse_stripList _
    · rw [hw, if_neg hcol]; exact stripList_stripList _
  have hwc : cfg.collapse_whitespace = true → collapseWs w = w := by
    intro hcol
    rw [hw, if_pos hcol]; exact collapseWs_idem _
  have ht : t = String.mk w := by
    rw [hPr] at h
    rcases h with h | h
    · exact (classifyLine_tagKeep_inv h).1
    · exact (classifyLine_contentKeep_inv h).1
  have hdata : (String.mk w).data = w := rfl
  rw [ht, hPr, processLine_eq_classify (by rw [hdata, hws]; exact hwne)]
  congr 1
  by_cases hcol : cfg.collapse_whitespace = true
  · rw [if_pos hcol, hdata, hws, hwc hcol]
  · rw [if_neg hcol, hdata, hws]

theorem cleanLinesGo_mem (cfg : FilterConfig) :
    ∀ (lines acc : List String) (lastLine : Option String) (lastCount : Nat)
      (y : String), y ∈ cleanLinesGo cfg lines acc lastLine lastCount →
      y ∈ acc ∨ ∃ raw, processLine cfg raw = .tagKeep y ∨ processLine cfg raw = .contentKeep y := by
  intro lines
  induction lines with
  | nil =>
    intro acc lastLine lastCount y hy
    simp only [cleanLinesGo] at hy
    exact Or.inl (by simpa using hy)
  | cons raw rest ih =>
    intro acc lastLine lastCount y hy
    cases hp : processLine cfg raw with
    | drop =>
      simp only [cleanLinesGo, hp] at hy
      exact ih _ _ _ y hy
    | tagKeep t =>
      simp only [cleanLinesGo, hp] at hy
      rcases ih _ _ _ y hy with hin | hex
      · rcases List.mem_cons.1 hin with rfl | hin2
        · exact Or.inr ⟨raw, Or.inl hp⟩
        · exact Or.inl hin2
      · exact Or.inr hex
    | contentKeep c =>
      simp only [cleanLinesGo, hp] at hy
      by_cases hc : lastLine = some c
      · rw [if_pos hc] at hy
        by_cases hcount : lastCount + 1 ≥ cfg.max_same_line_repeats
        · rw [if_pos hcount] at hy
          exact ih _ _ _ y hy
        · rw [if_neg hcount] at hy
          rcases ih _ _ _ y hy with hin | hex
          · rcases List.mem_cons.1 hin with rfl | hin2
            · exact Or.inr ⟨raw, Or.inr hp⟩
            · exact Or.inl hin2
          · exact Or.inr hex
      · rw [if_neg hc] at hy
        rcases ih _ _ _ y hy with hin | hex
        · rcases List.mem_cons.1 hin with rfl | hin2
          · exact Or.inr ⟨raw, Or.inr hp⟩
          · exact Or.inl hin2
        · exact Or.inr hex

theorem headRun_decomp (l : String) :
    ∀ (acc : List String), ∃ t, acc = List.replicate (headRun l acc) l ++ t := by
  intro acc
  induction acc with
  | nil => exact ⟨[], rfl⟩
  | cons x xs ih =>
    by_cases hx : x = l
    · subst hx
      obtain ⟨t, ht⟩ := ih
      refine ⟨t, ?_⟩
      rw [headRun_cons_self, List.replicate_succ, List.cons_append]
      exact congrArg (x :: ·) ht
    · exact ⟨x :: xs, by rw [headRun_cons_ne hx]; rfl⟩

theorem replicate_prefix_replicate {α : Type} (a : α) {j k : Nat} (h : j ≤ k) :
    List.replicate j a <+: List.replicate k a :=
  List.isPrefix_replicate_iff.2 ⟨by simpa using h, by simp⟩

theorem headRun_eq_zero_of_head {l : String} {acc : List String}
    (h : acc.head? ≠ some l) : headRun l acc = 0 := by
  cases acc with
  | nil => rfl
  | cons x xs =>
    exact headRun_cons_ne (fun he => h (by simp [he]))

/-- Re-running the `clean_lines` loop over an already-cleaned suffix `todo`
keeps every line: the state invariant ties the repeat tracker to the actual
trailing run of `acc` (the reversed emitted prefix), and the run bound from
the first pass shows the tracker never reaches the cap. -/
theorem cleanLinesGo_rerun (cfg : FilterConfig) :
    ∀ (todo acc : List String) (lastLine : Option String) (lastCount : Nat),
      (∀ y ∈ todo,
        (processLine cfg y = .tagKeep y ∧ (cfg.keep_tag_lines && is_tag_line y) = true) ∨
        (processLine cfg y = .contentKeep y ∧ (cfg.keep_tag_lines && is_tag_line y) = false)) →
      (∀ y, (cfg.keep_tag_lines && is_tag_line y) = false →
        ¬ List.replicate (max 1 cfg.max_same_line_repeats + 1) y <:+: acc.reverse ++ todo) →
      (match lastLine with
       | none => acc = []
       | some z => acc.head? = some z ∧
           ((cfg.keep_tag_lines && is_tag_line z) = false →
             headRun z acc = lastCount + 1)) →
      cleanLinesGo cfg todo acc lastLine lastCount = acc.reverse ++ todo := by
  intro todo
  induction todo with
  | nil =>
    intro acc lastLine lastCount _ _ _
    simp [cleanLinesGo]
  | cons y rest ih =>
    intro acc lastLine lastCount hstab hrun hstate
    have hy := hstab y (List.mem_cons_self y rest)
    have hrest : ∀ z ∈ rest,
        (processLine cfg z = .tagKeep z ∧ (cfg.keep_tag_lines && is_tag_line z) = true) ∨
        (processLine cfg z = .contentKeep z ∧ (cfg.keep_tag_lines && is_tag_line z) = false) :=
      fun z hz => hstab z (List.mem_cons_of_mem y hz)
    have hshift : (y :: acc).reverse ++ rest = acc.reverse ++ y :: rest := by
      simp
    rcases hy with ⟨hpy, htag⟩ | ⟨hpy, htag⟩
    · simp only [cleanLinesGo, hpy]
      rw [ih (y :: acc) (some y) 0 hrest ?_ ?_]
      · rw [hshift]
      · intro z hz
        rw [hshift]
        exact hrun z hz
      · refine ⟨rfl, ?_⟩
        intro hzc
        rw [htag] at hzc
        cases hzc
    · simp only [cleanLinesGo, hpy]
      rcases hll : lastLine with _ | z
      · rw [hll] at hstate
        have hacc : acc = [] := hstate
        subst hacc
        rw [if_neg (by simp)]
        rw [ih [y] (some y) 0 hrest ?_ ?_]
        · rw [hshift]
        · intro z hz
          rw [hshift]
          exact hrun z hz
        · exact ⟨rfl, fun _ => by simp [headRun]⟩
      · rw [hll] at hstate
        obtain ⟨hhead, hcontent⟩ := hstate
        by_cases hzy : z = y
        · subst hzy
          have heq : headRun z acc = lastCount + 1 := hcontent htag
          set k := headRun z acc with hk
          have hbound : k + 1 ≤ max 1 cfg.max_same_line_repeats := by
            by_contra hgt
            apply hrun z htag
            obtain ⟨t, hdecomp⟩ := headRun_decomp z acc
            have hinfix : List.replicate (k + 1) z <:+: acc.reverse ++ z :: rest := by
              refine ⟨t.reverse, rest, ?_⟩
              conv_rhs => rw [hdecomp]
              rw [List.reverse_append, List.reverse_replicate, List.replicate_succ']
              simp [List.append_assoc]
            exact (replicate_prefix_replicate z
              (Nat.succ_le_succ (Nat.lt_succ_iff.1 (Nat.not_le.1 hgt)))).isInfix.trans hinfix
          rw [if_pos rfl]
          rw [if_neg ?_]
          · rw [ih (z :: acc) (some z) (lastCount + 1) hrest ?_ ?_]
            · rw [hshift]
            · intro u hu
              rw [hshift]
              exact hrun u hu
            · refine ⟨rfl, fun _ => ?_⟩
              rw [headRun_cons_self, ← hk, heq]
          · intro hge
            rcases le_or_lt 1 cfg.max_same_line_repeats with h1 | h0
            · rw [Nat.max_eq_right h1] at hbound
              omega
            · rw [Nat.max_eq_left (by omega)] at hbound
              omega
        · rw [if_neg (fun hcon => hzy (Option.some.inj hcon))]
          rw [ih (y :: acc) (some y) 0 hrest ?_ ?_]
          · rw [hshift]
          · intro u hu
            rw [hshift]
            exact hrun u hu
          · refine ⟨rfl, fun _ => ?_⟩
            have hz0 : headRun y acc = 0 :=
              headRun_eq_zero_of_head
                (by rw [hhead]; exact fun hcon => hzy (Option.some.inj hcon))
            rw [headRun_cons_self, hz0]

/-- C8 (amended): the line-level clean (`clean_lines`) is idempotent for
every input list and every `FilterConfig`: its output lines are stripped,
collapsed and filter-stable, and their consecutive runs respect the cap, so
the second pass keeps everything. -/
theorem C8_clean_lines_idempotent (lines : List String) (cfg : FilterConfig) :
    clean_lines (clean_lines lines cfg) cfg = clean_lines lines cfg := by
  have hstab : ∀ y ∈ clean_lines lines cfg,
      (processLine cfg y = .tagKeep y ∧ (cfg.keep_tag_lines && is_tag_line y) = true) ∨
      (processLine cfg y = .contentKeep y ∧ (cfg.keep_tag_lines && is_tag_line y) = false) := by
    intro y hy
    rcases cleanLinesGo_mem cfg lines [] none 0 y hy with hin | ⟨raw, hk⟩
    · simp at hin
    · rcases hk with hk | hk
      · refine Or.inl ⟨?_, ?_⟩
        · rw [processLine_self (Or.inl hk)]
          exact hk
        · have h2 := processLine_tagKeep_inv hk
          rw [h2.1, h2.2]
          rfl
      · refine Or.inr ⟨?_, ?_⟩
        · rw [processLine_self (Or.inr hk)]
          exact hk
        · have h1 : stripList raw.data ≠ [] := by
            intro h0
            rw [processLine_eq_drop_of_empty h0] at hk
            cases hk
          rw [processLine_eq_classify h1] at hk
          exact (classifyLine_contentKeep_inv hk).2
  have hrun : ∀ y, (cfg.keep_tag_lines && is_tag_line y) = false →
      ¬ List.replicate (max 1 cfg.max_same_line_repeats + 1) y <:+:
        ([] : List String).reverse ++ clean_lines lines cfg := by
    intro y hflag
    have h := cleanLinesGo_no_long_run cfg y hflag lines [] none 0
      (by
        intro hcon
        have := hcon.length_le
        simp at this)
      (by simp [headRun])
      (by intro he; cases he)
      (by intro _; rfl)
    simpa [clean_lines] using h
  have h := cleanLinesGo_rerun cfg (clean_lines lines cfg) [] none 0 hstab hrun rfl
  simpa [clean_lines] using h

/-- C8 counterexample: `clean_section_text` itself is not idempotent.  On
`c8Text` the tag repair prepends the raw open-tag line `<VERSE  s>` (with its
double space), and a second application collapses that whitespace, changing
the text.  The content of `c8Text` is clean in the claim's sense: no
foreign-script content line, no repeats, no short lines. -/
theorem C8_counterexample :
    clean_section_text (clean_section_text c8Text {}) {} ≠ clean_section_text c8Text {} := by
  decide

/-!
### C4 and C10: the context-aware scorer
-/

theorem splitlinesGo_chars :
    ∀ (cur rest ln : List Char), ln ∈ splitlinesGo cur rest →
      ∀ c ∈ ln, c ∈ cur ∨ c ∈ rest := by
  intro cur rest
  induction cur, rest using splitlinesGo.induct with
  | case1 cur hemp =>
    intro ln hln c hc
    rw [splitlinesGo.eq_1, if_pos hemp] at hln
    simp at hln
  | case2 cur hemp =>
    intro ln hln c hc
    rw [splitlinesGo.eq_1, if_neg hemp] at hln
    simp only [List.mem_singleton] at hln
    subst hln
    exact Or.inl (by simpa using hc)
  | case3 cur rest ih =>
    intro ln hln c hc
    rw [splitlinesGo.eq_2] at hln
    rcases List.mem_cons.1 hln with rfl | h2
    · exact Or.inl (by simpa using hc)
    · rcases ih ln h2 c hc with h | h
      · simp at h
      · exact Or.inr (by simp [h])
  | case4 cur c0 rest hpat hbr ih =>
    intro ln hln c hc
    rw [splitlinesGo.eq_3 cur c0 rest hpat, if_pos hbr] at hln
    rcases List.mem_cons.1 hln with rfl | h2
    · exact Or.inl (by simpa using hc)
    · rcases ih ln h2 c hc with h | h
      · simp at h
      · exact Or.inr (by simp [h])
  | case5 cur c0 rest hpat hbr ih =>
    intro ln hln c hc
    rw [splitlinesGo.eq_3 cur c0 rest hpat, if_neg hbr] at hln
    rcases ih ln hln c hc with h | h
    · rcases List.mem_cons.1 h with rfl | h2
      · exact Or.inr (List.mem_cons_self _ _)
      · exact Or.inl h2
    · exact Or.inr (List.mem_cons_of_mem _ h)

theorem stripList_eq_nil_iff {l : List Char} :
    stripList l = [] ↔ ∀ c ∈ l, isPySpace c = true := by
  unfold stripList
  rw [List.rdropWhile_eq_nil_iff]
  constructor
  · intro h
    rcases hD : l.dropWhile isPySpace with _ | ⟨d, ds⟩
    · exact List.dropWhile_eq_nil_iff.1 hD
    · exfalso
      have hd := h d (by rw [hD]; exact List.mem_cons_self d ds)
      have hns := List.head?_dropWhile_not isPySpace l
      rw [hD] at hns
      simp only [List.head?_cons] at hns
      exact absurd hd (by simp [hns])
  · intro h x hx
    exact h x ((List.dropWhile_sublist isPySpace).subset hx)

theorem pyStripS_eq_empty_iff {s : String} :
    pyStripS s = "" ↔ stripList s.data = [] := by
  constructor
  · intro h
    exact congrArg String.data h
  · intro h
    rw [pyStripS, h]

theorem get_content_lines_of_blank {s : String} (h : pyStripS s = "") :
    get_content_lines s = [] := by
  have hall : ∀ c ∈ s.data, isPySpace c = true :=
    stripList_eq_nil_iff.1 (pyStripS_eq_empty_iff.1 h)
  unfold get_content_lines
  rw [List.filter_eq_nil_iff]
  intro ln hln
  obtain ⟨ln0, hln0, rfl⟩ := List.mem_map.1 hln
  obtain ⟨lnL, hlnL, rfl⟩ := List.mem_map.1 hln0
  have hsub : ∀ c ∈ lnL, c ∈ s.data := fun c hc =>
    (splitlinesGo_chars [] s.data lnL hlnL c hc).elim (fun hx => absurd hx (by simp)) id
  have hnil : stripList lnL = [] :=
    stripList_eq_nil_iff.2 (fun c hc => hall c (hsub c hc))
  have : pyStripS (String.mk lnL) = "" := by
    rw [pyStripS]
    show String.mk (stripList lnL) = ""
    rw [hnil]
  simp [this]

theorem overlapRatioQ_nonneg (text prev : String) : 0 ≤ overlapRatioQ text prev := by
  simp only [overlapRatioQ]
  split_ifs with h
  · exact div_nonneg (by positivity) (by positivity)
  · exact le_refl 0

theorem gramOverlapQ_nonneg (text prev : String) : 0 ≤ gramOverlapQ text prev := by
  simp only [gramOverlapQ]
  split_ifs with h
  · exact div_nonneg (by positivity) (by positivity)
  · exact le_refl 0

theorem overlapRatioQ_le_one (text prev : String) : overlapRatioQ text prev ≤ 1 := by
  simp only [overlapRatioQ]
  split_ifs with h
  · rw [div_le_one (by exact_mod_cast List.length_pos.2 h)]
    exact_mod_cast List.length_filter_le _ _
  · norm_num

theorem gramOverlapQ_le_one (text prev : String) : gramOverlapQ text prev ≤ 1 := by
  simp only [gramOverlapQ]
  split_ifs with h
  · rw [div_le_one (by exact_mod_cast List.length_pos.2 h)]
    exact_mod_cast List.length_filter_le _ _
  · norm_num

theorem overlapRatioQ_pos_of_shared {text prev : String} {l : String}
    (h1 : l ∈ get_content_lines text) (h2 : l ∈ get_content_lines prev) :
    0 < overlapRatioQ text prev := by
  simp only [overlapRatioQ]
  have hmem : l ∈ (get_content_lines text).dedup := List.mem_dedup.2 h1
  have hne : (get_content_lines text).dedup ≠ [] := by
    intro h0
    rw [h0] at hmem
    simp at hmem
  rw [if_pos hne]
  apply div_pos
  · have hmf : l ∈ (get_content_lines text).dedup.filter
        (fun x => x ∈ (get_content_lines prev).dedup) :=
      List.mem_filter.2 ⟨hmem, by simp [List.mem_dedup, h2]⟩
    have : 0 < ((get_content_lines text).dedup.filter
        (fun x => x ∈ (get_content_lines prev).dedup)).length :=
      List.length_pos.2 (by intro h0; rw [h0] at hmf; simp at hmf)
    exact_mod_cast this
  · exact_mod_cast List.length_pos.2 hne

theorem gramOverlapQ_pos_of_shared {text prev : String} {g : String}
    (h1 : g ∈ ngramsS (pySplitS (joinS " " (get_content_lines text))) 4)
    (h2 : g ∈ ngramsS (pySplitS (joinS " " (get_content_lines prev))) 4) :
    0 < gramOverlapQ text prev := by
  simp only [gramOverlapQ]
  have hmem : g ∈ (ngramsS (pySplitS (joinS " " (get_content_lines text))) 4).dedup :=
    List.mem_dedup.2 h1
  have hne : (ngramsS (pySplitS (joinS " " (get_content_lines text))) 4).dedup ≠ [] := by
    intro h0
    rw [h0] at hmem
    simp at hmem
  rw [if_pos hne]
  apply div_pos
  · have hmf : g ∈ (ngramsS (pySplitS (joinS " " (get_content_lines text))) 4).dedup.filter
        (fun x => x ∈ (ngramsS (pySplitS (joinS " " (get_content_lines prev))) 4).dedup) :=
      List.mem_filter.2 ⟨hmem, by simp [List.mem_dedup, h2]⟩
    have : 0 < ((ngramsS (pySplitS (joinS " " (get_content_lines text))) 4).dedup.filter
        (fun x => x ∈ (ngramsS (pySplitS (joinS " " (get_content_lines prev))) 4).dedup)).length :=
      List.length_pos.2 (by intro h0; rw [h0] at hmf; simp at hmf)
    exact_mod_cast this
  · exact_mod_cast List.length_pos.2 hne

theorem sInC_main_eq {text prev : String} (h1 : pyStripS prev ≠ "")
    (h2 : get_content_lines text ≠ []) (h3 : get_content_lines prev ≠ []) :
    score_section_in_context text prev =
      (if 0 < gramOverlapQ text prev then
        (if 0 < overlapRatioQ text prev then
          score_section text - 8 * overlapRatioQ text prev
         else score_section text) - 6 * gramOverlapQ text prev
       else
        (if 0 < overlapRatioQ text prev then
          score_section text - 8 * overlapRatioQ text prev
         else score_section text)) := by
  simp only [score_section_in_context]
  rw [if_neg h1, if_neg (by rintro (h | h); exacts [h2 h, h3 h])]

/-- C4: `score_section_in_context(text, prior) ≤ score_section(text)` always;
the inequality is strict whenever text and prior share a content line;
equality implies that they share neither a content line nor a 4-gram; and
equality holds when the prior is blank or yields no content lines. -/
theorem C4_context_penalty (text prev : String) :
    score_section_in_context text prev ≤ score_section text ∧
    ((∃ l, l ∈ get_content_lines text ∧ l ∈ get_content_lines prev) →
      score_section_in_context text prev < score_section text) ∧
    (score_section_in_context text prev = score_section text →
      (¬ ∃ l, l ∈ get_content_lines text ∧ l ∈ get_content_lines prev) ∧
      (¬ ∃ g, g ∈ ngramsS (pySplitS (joinS " " (get_content_lines text))) 4 ∧
              g ∈ ngramsS (pySplitS (joinS " " (get_content_lines prev))) 4)) ∧
    ((pyStripS prev = "" ∨ get_content_lines prev = []) →
      score_section_in_context text prev = score_section text) := by
  by_cases hb : pyStripS prev = ""
  · have he : score_section_in_context text prev = score_section text := by
      simp only [score_section_in_context]
      rw [if_pos hb]
    have hpl : get_content_lines prev = [] := get_content_lines_of_blank hb
    refine ⟨le_of_eq he, ?_, ?_, fun _ => he⟩
    · rintro ⟨l, _, h2⟩
      rw [hpl] at h2
      simp at h2
    · intro _
      constructor
      · rintro ⟨l, _, h2⟩
        rw [hpl] at h2
        simp at h2
      · rintro ⟨g, _, h2⟩
        rw [hpl] at h2
        rw [show ngramsS (pySplitS (joinS " " ([] : List String))) 4 = [] from rfl] at h2
        simp at h2
  · by_cases hc : get_content_lines text = [] ∨ get_content_lines prev = []
    · have he : score_section_in_context text prev = score_section text := by
        simp only [score_section_in_context]
        rw [if_neg hb, if_pos hc]
      refine ⟨le_of_eq he, ?_, ?_, fun _ => he⟩
      · rintro ⟨l, h1, h2⟩
        rcases hc with h | h
        · rw [h] at h1; simp at h1
        · rw [h] at h2; simp at h2
      · intro _
        constructor
        · rintro ⟨l, h1, h2⟩
          rcases hc with h | h
          · rw [h] at h1; simp at h1
          · rw [h] at h2; simp at h2
        · rintro ⟨g, h1, h2⟩
          rcases hc with h | h
          · rw [h, show ngramsS (pySplitS (joinS " " ([] : List String))) 4 = [] from rfl] at h1
            simp at h1
          · rw [h, show ngramsS (pySplitS (joinS " " ([] : List String))) 4 = [] from rfl] at h2
            simp at h2
    · push_neg at hc
      have he := sInC_main_eq hb hc.1 hc.2
      have r0 := overlapRatioQ_nonneg text prev
      have g0 := gramOverlapQ_nonneg text prev
      refine ⟨?_, ?_, ?_, ?_⟩
      · rw [he]
        split_ifs <;> linarith
      · rintro ⟨l, h1, h2⟩
        have rp := overlapRatioQ_pos_of_shared h1 h2
        rw [he]
        split_ifs <;> linarith
      · intro heq
        rw [he] at heq
        constructor
        · rintro ⟨l, h1, h2⟩
          have rp := overlapRatioQ_pos_of_shared h1 h2
          revert heq
          split_ifs <;> intro heq <;> linarith
        · rintro ⟨g, h1, h2⟩
          have gp := gramOverlapQ_pos_of_shared h1 h2
          revert heq
          split_ifs <;> intro heq <;> linarith
      · rintro (h | h)
        · exact absurd h hb
        · exact absurd h hc.2

/-- Witness for C4: a shared content line makes the context-aware score
strictly smaller. -/
theorem C4_witness :
    score_section_in_context "привет мир дом\nгород свет лес" "привет мир дом" <
      score_section "привет мир дом\nгород свет лес" :=
  (C4_context_penalty "привет мир дом\nгород свет лес" "привет мир дом").2.1
    ⟨"привет мир дом", by decide, by decide⟩

/-- C10: the guarded denominators of the scorers.  The Cyrillic ratio is `0`
when the content has no letters of either script; the gram penalty is `0`
when there are no 4-grams; and the context penalties are bounded (each ratio
is at most `1`), so `score_section_in_context` never drops more than `14`
below `score_section` — all divisions are total in the `ℚ` model and every
denominator is at least `1` by the `max(1, ·)` / emptiness guards. -/
theorem C10_totality_guards :
    (∀ s : String, countCyrS s + countLatS s = 0 → cyrRatioQ s = 0) ∧
    (∀ ws : List String, ws.length < 4 → gramPenaltyQ (ngramsS ws 4) = 0) ∧
    (∀ text prev : String,
      score_section text - 14 ≤ score_section_in_context text prev) := by
  refine ⟨?_, ?_, ?_⟩
  · intro s h
    unfold cyrRatioQ
    have h1 : countCyrS s = 0 := by omega
    rw [h1]
    simp
  · intro ws h
    have hnil : ngramsS ws 4 = [] := by
      unfold ngramsS
      rw [show ws.length + 1 - 4 = 0 from by omega]
      rfl
    rw [hnil]
    unfold gramPenaltyQ repGramsCount
    simp
  · intro text prev
    have r1 := overlapRatioQ_le_one text prev
    have g1 := gramOverlapQ_le_one text prev
    have r0 := overlapRatioQ_nonneg text prev
    have g0 := gramOverlapQ_nonneg text prev
    by_cases hb : pyStripS prev = ""
    · simp only [score_section_in_context]
      rw [if_pos hb]
      linarith
    · by_cases hc : get_content_lines text = [] ∨ get_content_lines prev = []
      · simp only [score_section_in_context]
        rw [if_neg hb, if_pos hc]
        linarith
      · push_neg at hc
        rw [sInC_main_eq hb hc.1 hc.2]
        split_ifs <;> linarith

/-- Witness for C10 at concrete inputs. -/
theorem C10_witness :
    cyrRatioQ "" = 0 ∧ gramPenaltyQ (ngramsS ["раз", "два"] 4) = 0 ∧
      score_section "ааа ббб ввв" - 14 ≤
        score_section_in_context "ааа ббб ввв" "ааа ббб ввв" :=
  ⟨C10_totality_guards.1 "" (by decide),
   C10_totality_guards.2.1 ["раз", "два"] (by decide),
   C10_totality_guards.2.2 "ааа ббб ввв" "ааа ббб ввв"⟩

/-!
### C3: the OUTRO escalation
-/

set_option maxRecDepth 400000 in
/-- C3 counterexample: a selected OUTRO text with exactly four non-tag
content lines (one of them starting with `<` without being a structural tag)
still triggers the escalation, because `main` counts `inner` lines by the
`startswith("<")` test rather than by the tag pattern. -/
theorem C3_counterexample :
    (orchestrate_step ⟨"OUTRO", "alekhin", none⟩ [c3Text] ["мало слов тут"] "" {}).2 = 1 ∧
    (get_content_lines (generate_section_with_retries [c3Text] "" {})).length = 4 := by
  constructor
  · decide
  · decide

/-- C3 (amended): an escalation re-run happens exactly when the step type is
`OUTRO` and the selected text has fewer than 4 non-blank lines whose stripped
form does not start with `<` (the code's `inner` count); exactly one re-run
is performed, its result unconditionally replaces the selection, and
non-OUTRO steps never escalate. -/
theorem C3_escalation (step : SectionSpec) (raws1 raws2 : List String)
    (context : String) (cfg : FilterConfig) :
    ((orchestrate_step step raws1 raws2 context cfg).2 = 1 ↔
      (step.type = "OUTRO" ∧
        innerLinesCount (generate_section_with_retries raws1 context cfg) < 4)) ∧
    ((orchestrate_step step raws1 raws2 context cfg).2 = 1 →
      (orchestrate_step step raws1 raws2 context cfg).1 =
        generate_section_with_retries raws2 context cfg) ∧
    ((orchestrate_step step raws1 raws2 context cfg).2 = 0 →
      (orchestrate_step step raws1 raws2 context cfg).1 =
        generate_section_with_retries raws1 context cfg) ∧
    (step.type ≠ "OUTRO" → (orchestrate_step step raws1 raws2 context cfg).2 = 0) := by
  simp only [orchestrate_step]
  split_ifs with h
  · exact ⟨⟨fun _ => h, fun _ => rfl⟩, fun _ => rfl,
      fun h0 => h0.elim, fun ht => ht h.1⟩
  · exact ⟨⟨fun h0 => h0.elim, fun hcond => h hcond⟩,
      fun h0 => h0.elim, fun _ => rfl, fun _ => rfl⟩

set_option maxRecDepth 400000 in
/-- Witness for C3: the escalation result replaces the selection even though
the replacement itself has fewer than four content lines. -/
theorem C3_witness :
    (orchestrate_step ⟨"OUTRO", "alekhin", none⟩ [c3Text] ["мало слов тут"] "" {}).1 =
      generate_section_with_retries ["мало слов тут"] "" {} :=
  (C3_escalation ⟨"OUTRO", "alekhin", none⟩ [c3Text] ["мало слов тут"] "" {}).2.1
    (by decide)

/-!
### C5: the escalation parameter relaxation
-/

/-- C5 counterexample: with an initial token budget of 400 the escalation
re-run does not use a larger token budget (`max(300, 400) = 400`), so the
relaxation claimed for every initial parameter setting fails. -/
theorem C5_counterexample :
    ¬ (firstPassParams c5Args 0).max_tokens < (escalationParams c5Args 0).max_tokens := by
  decide

/-- C5 (amended): whenever the initial parameters lie below the escalation
clamps (`max_tokens < 300`, `temp < 0.85`, `top_p < 0.92`, `top_k < 60`,
`min_p > 0.05`, `tries ≤ 999`), the escalation re-run uses a strictly larger
token budget, strictly increased temperature and top-p, a strictly larger
top-k, a strictly decreased min-p, a larger-or-equal attempt count, and a
seed distinct from every seed used by the first pass's attempts. -/
theorem C5_relaxation (a : GenArgs) (i : Nat)
    (h1 : a.max_tokens_section < 300) (h2 : a.temp < (0.85 : ℚ))
    (h3 : a.top_p < (0.92 : ℚ)) (h4 : a.top_k < 60)
    (h5 : (0.05 : ℚ) < a.min_p) (h6 : a.tries ≤ 999) :
    (firstPassParams a i).max_tokens < (escalationParams a i).max_tokens ∧
    (firstPassParams a i).temp < (escalationParams a i).temp ∧
    (firstPassParams a i).top_p < (escalationParams a i).top_p ∧
    (firstPassParams a i).top_k < (escalationParams a i).top_k ∧
    (escalationParams a i).min_p < (firstPassParams a i).min_p ∧
    (firstPassParams a i).tries ≤ (escalationParams a i).tries ∧
    (escalationParams a i).seed ∉ attemptSeeds (firstPassParams a i) := by
  simp only [firstPassParams, escalationParams]
  refine ⟨lt_of_lt_of_le h1 (le_max_left 300 _), lt_min h2 (by linarith),
    lt_min h3 (by linarith), lt_of_lt_of_le h4 (le_max_left 60 _),
    max_lt h5 (by linarith), le_max_right 3 a.tries, ?_⟩
  intro hmem
  simp only [attemptSeeds, List.mem_map, List.mem_range] at hmem
  obtain ⟨t, ht, heq⟩ := hmem
  omega

/-- Witness for C5 at the default arguments. -/
theorem C5_witness :
    (firstPassParams {} 0).max_tokens < (escalationParams {} 0).max_tokens ∧
    (firstPassParams {} 0).temp < (escalationParams {} 0).temp ∧
    (firstPassParams {} 0).top_p < (escalationParams {} 0).top_p ∧
    (firstPassParams {} 0).top_k < (escalationParams {} 0).top_k ∧
    (escalationParams {} 0).min_p < (firstPassParams {} 0).min_p ∧
    (firstPassParams {} 0).tries ≤ (escalationParams {} 0).tries ∧
    (escalationParams {} 0).seed ∉ attemptSeeds (firstPassParams {} 0) :=
  C5_relaxation {} 0 (by decide) (by decide) (by decide) (by decide)
    (by decide) (by decide)

/-!
### C6: configuration errors of the structure expression
-/

theorem parseParts_error :
    ∀ (parts : List (List Char)) (vidx : Nat),
      (∃ p ∈ parts, p ≠ [] ∧ ¬ ('(' ∈ p ∧ ')' ∈ p)) →
      ∃ msg, parseParts parts vidx = .error msg := by
  intro parts
  induction parts with
  | nil =>
    rintro vidx ⟨p, hp, _⟩
    simp at hp
  | cons q rest ih =>
    rintro vidx ⟨p, hp, hne, hdel⟩
    rcases List.mem_cons.1 hp with rfl | hp2
    · simp only [parseParts]
      rw [if_neg hne, if_pos hdel]
      exact ⟨_, rfl⟩
    · by_cases hq0 : q = []
      · simp only [parseParts]
        rw [if_pos hq0]
        exact ih vidx ⟨p, hp2, hne, hdel⟩
      · by_cases hqd : ¬ ('(' ∈ q ∧ ')' ∈ q)
        · simp only [parseParts]
          rw [if_neg hq0, if_pos hqd]
          exact ⟨_, rfl⟩
        · simp only [parseParts]
          rw [if_neg hq0, if_neg hqd]
          obtain ⟨msg, hmsg⟩ := ih
            (if String.mk ((stripList (q.takeWhile (fun c => c ≠ '('))).map pyUpperChar) = "VERSE"
             then vidx + 1 else vidx)
            ⟨p, hp2, hne, hdel⟩
          rw [hmsg]
          exact ⟨msg, rfl⟩

/-- C6 (amended): a structure element lacking one of the delimiters aborts
the run with a configuration error before any generation call: the parse
fails, `main_run` fails, and the outcome is independent of the generation
oracle and the filter configuration (no generation output is consulted).
An unrecognized section type, however, is not rejected — see the
counterexample. -/
theorem C6_malformed_aborts (s : String) (oracle oracle2 : Nat → List String)
    (cfg cfg2 : FilterConfig)
    (h : ∃ p ∈ (splitOnChar '>' s.data).map stripList,
          p ≠ [] ∧ ¬ ('(' ∈ p ∧ ')' ∈ p)) :
    (parse_structure s).isOk = false ∧ (main_run s oracle cfg).isOk = false ∧
      main_run s oracle cfg = main_run s oracle2 cfg2 := by
  obtain ⟨msg, hmsg⟩ := parseParts_error ((splitOnChar '>' s.data).map stripList) 0 h
  have hps : parse_structure s = .error msg := hmsg
  refine ⟨by rw [hps]; rfl, ?_, ?_⟩
  · simp only [main_run, hps]
    rfl
  · simp only [main_run, hps]

/-- Witness for C6 at a concrete malformed structure expression. -/
theorem C6_witness :
    (parse_structure "VERSE speransky > CHORUS(a)").isOk = false ∧
    (main_run "VERSE speransky > CHORUS(a)" (fun _ => []) {}).isOk = false ∧
      main_run "VERSE speransky > CHORUS(a)" (fun _ => []) {} =
        main_run "VERSE speransky > CHORUS(a)" (fun _ => ["ааа ббб ввв"]) {} :=
  C6_malformed_aborts "VERSE speransky > CHORUS(a)" (fun _ => []) (fun _ => ["ааа ббб ввв"]) {} {}
    ⟨"VERSE speransky".data, by decide, by decide, by decide⟩

/-- C6 counterexample: an unrecognized section type (`FOO`) is not rejected:
the structure parses successfully and the run proceeds to generation,
producing an output artifact. -/
theorem C6_counterexample :
    (parse_structure "FOO(bar)").toOption = some [⟨"FOO", "bar", none⟩] ∧
    (main_run "FOO(bar)" (fun _ => ["ааа ббб ввв"]) {}).isOk = true := by
  constructor
  · decide
  · decide

/-!
### C9: the candidate selector
-/

theorem splitlinesGo_line (x : List Char) :
    ∀ (cur rest : List Char), (∀ c ∈ x, isLineBreak c = false) →
      splitlinesGo cur (x ++ '\n' :: rest) =
        (cur.reverse ++ x) :: splitlinesGo [] rest := by
  induction x with
  | nil =>
    intro cur rest _
    rw [List.nil_append,
      splitlinesGo.eq_3 cur '\n' rest (fun r hc _ => absurd hc (by decide)),
      if_pos (by decide)]
    simp
  | cons a x ih =>
    intro cur rest hx
    have ha : isLineBreak a = false := hx a (List.mem_cons_self a x)
    have har : a ≠ '\r' := by
      intro h
      rw [h] at ha
      exact absurd ha (by decide)
    rw [List.cons_append,
      splitlinesGo.eq_3 cur a (x ++ '\n' :: rest) (fun r hc _ => absurd hc har),
      if_neg (by simp [ha]),
      ih (a :: cur) rest (fun c hc => hx c (List.mem_cons_of_mem a hc))]
    simp

theorem splitlines_join_replicate (l : List Char)
    (hl : ∀ c ∈ l, isLineBreak c = false) :
    ∀ n : Nat, splitlinesList (List.join (List.replicate n (l ++ ['\n']))) =
      List.replicate n l := by
  intro n
  induction n with
  | zero => rfl
  | succ n ih =>
    rw [List.replicate_succ]
    have hjoin : List.join ((l ++ ['\n']) :: List.replicate n (l ++ ['\n'])) =
        l ++ '\n' :: List.join (List.replicate n (l ++ ['\n'])) := by simp
    rw [hjoin, splitlinesList, splitlinesGo_line l [] _ hl, ← splitlinesList, ih,
      List.replicate_succ]
    simp

theorem dedup_replicate_succ (a : String) :
    ∀ n : Nat, (List.replicate (n + 1) a).dedup = [a] := by
  intro n
  induction n with
  | zero => simp
  | succ n ih =>
    rw [List.replicate_succ, List.dedup_cons_of_mem (by simp [List.mem_replicate])]
    exact ih

theorem repsOf_replicate (L : String) (n : Nat) (hn : 1 ≤ n) :
    repsOf (List.replicate n L) = [n] := by
  obtain ⟨m, rfl⟩ : ∃ m, n = m + 1 := ⟨n - 1, by omega⟩
  rw [repsOf, dedup_replicate_succ]
  simp [List.count_replicate_self, List.insertionSort, List.orderedInsert]

theorem avgLen_replicate (L : String) (n : Nat) (hn : 1 ≤ n) :
    avgLenQ (List.replicate n L) = ((pySplitS L).length : ℚ) := by
  rw [avgLenQ, List.map_replicate, List.sum_replicate, List.length_replicate,
    Nat.max_eq_right hn, smul_eq_mul]
  have hn0 : (n : ℚ) ≠ 0 := Nat.cast_ne_zero.2 (by omega)
  push_cast
  field_simp

theorem cyrRatioQ_le_one (s : String) : cyrRatioQ s ≤ 1 := by
  rw [cyrRatioQ]
  apply div_le_one_of_le
  · exact_mod_cast le_max_of_le_right (Nat.le_add_right _ _)
  · positivity

theorem uniqRatioQ_le_one (content : List String) : uniqRatioQ content ≤ 1 := by
  rw [uniqRatioQ]
  apply div_le_one_of_le
  · exact_mod_cast le_max_of_le_right content.dedup_sublist.length_le
  · positivity

theorem gramPenaltyQ_nonneg (grams : List String) : 0 ≤ gramPenaltyQ grams := by
  rw [gramPenaltyQ]
  positivity

theorem score_content_replicate_le (L : String) (n : Nat) (h2 : 2 ≤ n) :
    score_contentQ (List.replicate n L) ≤
      4 + (0.10 : ℚ) * n + (0.20 : ℚ) * (pySplitS L).length + 2
        - 4 * ((n : ℚ) - 2) := by
  have h1 : 1 ≤ n := by omega
  simp only [score_contentQ, repsOf_replicate L n h1, List.length_replicate,
    avgLen_replicate L n h1, List.headD_cons, List.take_cons_succ,
    List.take_nil, List.sum_cons, List.sum_nil, Nat.add_zero]
  have hc : cyrRatioQ (joinS " " (List.replicate n L)) ≤ 1 := cyrRatioQ_le_one _
  have hu0 : 0 ≤ uniqRatioQ (List.replicate n L) := by
    rw [uniqRatioQ]; positivity
  have hu : uniqRatioQ (List.replicate n L) ≤ 1 := uniqRatioQ_le_one _
  have hg : 0 ≤ gramPenaltyQ
      (ngramsS (pySplitS (joinS " " (List.replicate n L))) 4) :=
    gramPenaltyQ_nonneg _
  have ht8 : (0 : ℚ) ≤ ((n - 8 : Nat) : ℚ) := by positivity
  have hn2 : ((n - 2 : Nat) : ℚ) = (n : ℚ) - 2 := by
    rw [Nat.cast_sub h2]
    norm_num
  rw [hn2]
  split_ifs <;> linarith

theorem score_section_sBig_lt :
    score_section sBig < -1000000000000000000 := by
  have hL : pyStripS "ааа ббб ввв" = "ааа ббб ввв" := by decide
  have hsplit : splitlinesS sBig = List.replicate nBig "ааа ббб ввв" := by
    rw [splitlinesS]
    show (splitlinesList (List.join (List.replicate nBig lBig))).map String.mk = _
    rw [show lBig = "ааа ббб ввв".data ++ ['\n'] from rfl,
      splitlines_join_replicate "ааа ббб ввв".data (by decide) nBig,
      List.map_replicate]
  have hkeep : ∀ b ∈ List.replicate nBig "ааа ббб ввв",
      (decide (b ≠ "") : Bool) = true := by
    intro b hb
    rw [List.eq_of_mem_replicate hb]
    decide
  have hlines : score_lines sBig = List.replicate nBig "ааа ббб ввв" := by
    rw [score_lines, hsplit, List.map_replicate, hL]
    exact List.filter_eq_self.2 hkeep
  have hcontent : content_of (List.replicate nBig "ааа ббб ввв") =
      List.replicate nBig "ааа ббб ввв" :=
    List.filter_eq_self.2 (fun b hb => by
      rw [List.eq_of_mem_replicate hb]; decide)
  have hne : List.replicate nBig "ааа ббб ввв" ≠ [] := by
    rw [Ne, List.replicate_eq_nil]
    norm_num [nBig]
  have hsc : score_section sBig = score_contentQ (List.replicate nBig "ааа ббб ввв") := by
    rw [score_section, hlines, if_neg hne, hcontent, if_neg hne]
  rw [hsc]
  have hb := score_content_replicate_le "ааа ббб ввв" nBig (by norm_num [nBig])
  have hw : ((pySplitS "ааа ббб ввв").length : ℚ) = 3 := by decide
  rw [hw] at hb
  have hcast : ((nBig : Nat) : ℚ) = 1000000000000000000 := by norm_num [nBig]
  rw [hcast] at hb
  linarith

/-- C9 counterexample: on the singleton candidate list `[sBig]` (one text of
`10^18` identical content lines) with empty context, the selector returns its
initial `best = ""`, which is not a member of the candidate list: every
candidate scores below the `-1e18` sentinel, so no update ever fires. -/
theorem C9_counterexample :
    (choose_best_candidate [sBig] "").1 ∉ [sBig] := by
  have hs : ¬ ((-1000000000000000000 : ℚ) < scoreForContext "" sBig) := by
    rw [scoreForContext, if_neg (by simp)]
    exact not_lt.2 (le_of_lt score_section_sBig_lt)
  have hres : choose_best_candidate [sBig] "" = ("", -1000000000000000000) := by
    rw [choose_best_candidate, chooseGo, if_neg hs, chooseGo]
  rw [hres]
  have hlen : sBig.data.length = nBig * 12 := by
    show (List.join (List.replicate nBig lBig)).length = nBig * 12
    rw [List.length_join, List.map_replicate, List.sum_replicate, smul_eq_mul,
      show lBig.length = 12 from by decide]
  simp only [List.mem_singleton]
  intro h
  rw [← h] at hlen
  revert hlen
  norm_num [nBig]

theorem chooseGo_cases (context : String) :
    ∀ (todo : List String) (best : String) (bs : ℚ),
      (chooseGo context todo best bs = (best, bs) ∧
        ∀ c ∈ todo, scoreForContext context c ≤ bs) ∨
      (∃ pre post, todo = pre ++ (chooseGo context todo best bs).1 :: post ∧
        scoreForContext context (chooseGo context todo best bs).1 =
          (chooseGo context todo best bs).2 ∧
        bs < (chooseGo context todo best bs).2 ∧
        (∀ c ∈ todo, scoreForContext context c ≤ (chooseGo context todo best bs).2) ∧
        (∀ c ∈ pre, scoreForContext context c < (chooseGo context todo best bs).2)) := by
  intro todo
  induction todo with
  | nil =>
    intro best bs
    exact Or.inl ⟨rfl, by simp⟩
  | cons c rest ih =>
    intro best bs
    by_cases hlt : bs < scoreForContext context c
    · have hstep : chooseGo context (c :: rest) best bs =
          chooseGo context rest c (scoreForContext context c) := by
        rw [chooseGo, if_pos hlt]
      rcases ih c (scoreForContext context c) with ⟨heq, hall⟩ | ⟨pre, post, hsp, hsc, hlt2, hall, hpre⟩
      · refine Or.inr ⟨[], rest, ?_, ?_, ?_, ?_, ?_⟩
        · rw [hstep, heq]
          rfl
        · rw [hstep, heq]
        · rw [hstep, heq]
          exact hlt
        · intro x hx
          rw [hstep, heq]
          rcases List.mem_cons.1 hx with rfl | hx2
          · exact le_refl _
          · exact hall x hx2
        · intro x hx
          simp at hx
      · refine Or.inr ⟨c :: pre, post, ?_, ?_, ?_, ?_, ?_⟩
        · rw [hstep, List.cons_append, ← hsp]
        · rw [hstep]
          exact hsc
        · rw [hstep]
          exact lt_trans hlt hlt2
        · intro x hx
          rw [hstep]
          rcases List.mem_cons.1 hx with rfl | hx2
          · exact le_of_lt hlt2
          · exact hall x hx2
        · intro x hx
          rw [hstep]
          rcases List.mem_cons.1 hx with rfl | hx2
          · exact hlt2
          · exact hpre x hx2
    · have hstep : chooseGo context (c :: rest) best bs =
          chooseGo context rest best bs := by
        rw [chooseGo, if_neg hlt]
      rcases ih best bs with ⟨heq, hall⟩ | ⟨pre, post, hsp, hsc, hlt2, hall, hpre⟩
      · refine Or.inl ⟨by rw [hstep, heq], ?_⟩
        intro x hx
        rcases List.mem_cons.1 hx with rfl | hx2
        · exact not_lt.1 hlt
        · exact hall x hx2
      · refine Or.inr ⟨c :: pre, post, ?_, ?_, ?_, ?_, ?_⟩
        · rw [hstep, List.cons_append, ← hsp]
        · rw [hstep]
          exact hsc
        · rw [hstep]
          exact hlt2
        · intro x hx
          rw [hstep]
          rcases List.mem_cons.1 hx with rfl | hx2
          · exact le_of_lt (lt_of_le_of_lt (not_lt.1 hlt) hlt2)
          · exact hall x hx2
        · intro x hx
          rw [hstep]
          rcases List.mem_cons.1 hx with rfl | hx2
          · exact lt_of_le_of_lt (not_lt.1 hlt) hlt2
          · exact hpre x hx2

/-- C9 (amended): whenever some candidate scores strictly above the `-1e18`
sentinel, the selector returns the first candidate attaining the maximal
score together with that score: the returned string occurs in the list, its
score equals the returned score, every candidate's score is at most the
returned score, and every candidate listed before the returned one scores
strictly below it.  (Without the sentinel hypothesis the selector can return
`""`, which need not be a candidate — see the counterexample.) -/
theorem C9_first_argmax (cands : List String) (context : String)
    (h : ∃ c ∈ cands, (-1000000000000000000 : ℚ) < scoreForContext context c) :
    ∃ pre post,
      cands = pre ++ (choose_best_candidate cands context).1 :: post ∧
      scoreForContext context (choose_best_candidate cands context).1 =
        (choose_best_candidate cands context).2 ∧
      (∀ c ∈ cands, scoreForContext context c ≤ (choose_best_candidate cands context).2) ∧
      (∀ c ∈ pre, scoreForContext context c < (choose_best_candidate cands context).2) := by
  obtain ⟨c0, hc0, hgt⟩ := h
  rcases chooseGo_cases context cands "" (-1000000000000000000) with
    ⟨_, hall⟩ | ⟨pre, post, hsp, hsc, _, hall, hpre⟩
  · exact absurd (hall c0 hc0) (not_le.2 hgt)
  · exact ⟨pre, post, hsp, hsc, hall, hpre⟩

/-- Witness for C9: on a two-candidate list with a strictly better second
candidate, the selector's result satisfies the first-argmax description. -/
theorem C9_witness :
    (∃ c ∈ ["ааа ббб", "ааа ббб ввв"],
      (-1000000000000000000 : ℚ) < scoreForContext "" c) ∧
    (∃ pre post,
      ["ааа ббб", "ааа ббб ввв"] =
        pre ++ (choose_best_candidate ["ааа ббб", "ааа ббб ввв"] "").1 :: post ∧
      scoreForContext "" (choose_best_candidate ["ааа ббб", "ааа ббб ввв"] "").1 =
        (choose_best_candidate ["ааа ббб", "ааа ббб ввв"] "").2 ∧
      (∀ c ∈ ["ааа ббб", "ааа ббб ввв"],
        scoreForContext "" c ≤ (choose_best_candidate ["ааа ббб", "ааа ббб ввв"] "").2) ∧
      (∀ c ∈ pre,
        scoreForContext "" c < (choose_best_candidate ["ааа ббб", "ааа ббб ввв"] "").2)) :=
  ⟨by decide, C9_first_argmax ["ааа ббб", "ааа ббб ввв"] "" (by decide)⟩

/-!
### C7: the repeat penalty of the scorer
-/

theorem gramPenaltyQ_le_one (grams : List String) : gramPenaltyQ grams ≤ 1 := by
  rw [gramPenaltyQ]
  apply div_le_one_of_le
  · have h1 : repGramsCount grams ≤ grams.length := by
      rw [repGramsCount]
      calc (grams.dedup.map (fun g => grams.count g - 1)).sum
          ≤ (grams.dedup.map (fun g => grams.count g)).sum := by
            apply List.sum_le_sum
            intro g hg
            exact Nat.sub_le _ _
        _ = grams.length := List.sum_map_count_dedup_eq_length grams
    calc ((repGramsCount grams : ℚ)) ≤ (grams.length : ℚ) := by exact_mod_cast h1
      _ ≤ ((max 1 grams.length : Nat) : ℚ) := by exact_mod_cast le_max_right 1 _
  · positivity

theorem reps_structure (A B : List String) (L : String)
    (hmax : ∀ x ∈ A ++ L :: B, (A ++ L :: B).count x ≤ (A ++ L :: B).count L) :
    ∃ T, repsOf (A ++ L :: B) = (A ++ L :: B).count L :: T ∧
      repsOf (A ++ L :: L :: B) = ((A ++ L :: B).count L + 1) :: T ∧
      T.Sorted (fun a b => a ≥ b) ∧ (∀ v ∈ T, v ≤ (A ++ L :: B).count L) := by
  have hLin : L ∈ A ++ L :: B := by simp
  have hmem : ∀ x, x ∈ A ++ L :: L :: B ↔ x ∈ A ++ L :: B := by
    intro x
    simp only [List.mem_append, List.mem_cons]
    tauto
  have hcount : ∀ x, (A ++ L :: L :: B).count x =
      (A ++ L :: B).count x + if x = L then 1 else 0 := by
    intro x
    simp only [List.count_append, List.count_cons, beq_iff_eq]
    by_cases hx : L = x
    · rw [if_pos hx, if_pos hx.symm]
      omega
    · rw [if_neg hx, if_neg (fun h => hx h.symm)]
      omega
  have hdnodup := List.nodup_dedup (A ++ L :: B)
  have hdnodup' := List.nodup_dedup (A ++ L :: L :: B)
  have hpermd : List.Perm (A ++ L :: L :: B).dedup (A ++ L :: B).dedup := by
    rw [List.perm_ext_iff_of_nodup hdnodup' hdnodup]
    intro a
    rw [List.mem_dedup, List.mem_dedup]
    exact hmem a
  have hLd : L ∈ (A ++ L :: B).dedup := List.mem_dedup.2 hLin
  have hRperm : List.Perm (A ++ L :: B).dedup (L :: (A ++ L :: B).dedup.erase L) :=
    List.perm_cons_erase hLd
  have hRne : ∀ x ∈ (A ++ L :: B).dedup.erase L, x ≠ L := by
    intro x hx
    exact ((List.Nodup.mem_erase_iff hdnodup).1 hx).1
  have hreps_perm : List.Perm (repsOf (A ++ L :: B))
      ((A ++ L :: B).count L ::
        ((A ++ L :: B).dedup.erase L).map (fun x => (A ++ L :: B).count x)) :=
    (List.perm_insertionSort _ _).trans (hRperm.map _)
  have hmapeq : (L :: (A ++ L :: B).dedup.erase L).map
        (fun x => (A ++ L :: L :: B).count x) =
      ((A ++ L :: B).count L + 1) ::
        ((A ++ L :: B).dedup.erase L).map (fun x => (A ++ L :: B).count x) := by
    simp only [List.map_cons]
    congr 1
    · rw [hcount L, if_pos rfl]
    · apply List.map_congr_left
      intro x hx
      rw [hcount x, if_neg (hRne x hx)]
      omega
  have hreps_perm' : List.Perm (repsOf (A ++ L :: L :: B))
      (((A ++ L :: B).count L + 1) ::
        ((A ++ L :: B).dedup.erase L).map (fun x => (A ++ L :: B).count x)) :=
    hmapeq ▸ ((List.perm_insertionSort _ _).trans ((hpermd.trans hRperm).map _))
  have hsorted : (repsOf (A ++ L :: B)).Sorted (fun a b => a ≥ b) :=
    List.sorted_insertionSort _ _
  have hsorted2 : (repsOf (A ++ L :: L :: B)).Sorted (fun a b => a ≥ b) :=
    List.sorted_insertionSort _ _
  have hub : ∀ v ∈ repsOf (A ++ L :: B), v ≤ (A ++ L :: B).count L := by
    intro v hv
    rcases List.mem_cons.1 (hreps_perm.subset hv) with rfl | h2
    · exact le_refl _
    · obtain ⟨x, hx, rfl⟩ := List.mem_map.1 h2
      exact hmax x (List.mem_dedup.1 (List.mem_of_mem_erase hx))
  have hmmem : (A ++ L :: B).count L ∈ repsOf (A ++ L :: B) :=
    hreps_perm.mem_iff.2 (List.mem_cons_self _ _)
  rcases hr : repsOf (A ++ L :: B) with _ | ⟨h0, T0⟩
  · rw [hr] at hmmem
    simp at hmmem
  · have hle : h0 ≤ (A ++ L :: B).count L :=
      hub h0 (by rw [hr]; exact List.mem_cons_self _ _)
    have hge : (A ++ L :: B).count L ≤ h0 := by
      rw [hr] at hmmem hsorted
      rcases List.mem_cons.1 hmmem with heq | h2
      · rw [heq]
      · exact (List.sorted_cons.1 hsorted).1 _ h2
    have h0eq : h0 = (A ++ L :: B).count L := le_antisymm hle hge
    subst h0eq
    have hTsorted : T0.Sorted (fun a b => a ≥ b) := by
      rw [hr] at hsorted
      exact (List.sorted_cons.1 hsorted).2
    have hTub : ∀ v ∈ T0, v ≤ (A ++ L :: B).count L := fun v hv =>
      hub v (by rw [hr]; exact List.mem_cons_of_mem _ hv)
    have hTperm : List.Perm T0
        (((A ++ L :: B).dedup.erase L).map (fun x => (A ++ L :: B).count x)) := by
      have h := hreps_perm
      rw [hr] at h
      exact h.cons_inv
    refine ⟨T0, rfl, ?_, hTsorted, hTub⟩
    apply List.eq_of_perm_of_sorted (hreps_perm'.trans ((hTperm.symm).cons _)) hsorted2
    rw [List.sorted_cons]
    exact ⟨fun b hb => le_trans (hTub b hb) (Nat.le_succ _), hTsorted⟩

theorem score_content_extra_repeat_lt (A B : List String) (L : String)
    (hmax : ∀ x ∈ A ++ L :: B, (A ++ L :: B).count x ≤ (A ++ L :: B).count L)
    (h2 : 2 ≤ (A ++ L :: B).count L)
    (hl : countLatS (joinS " " (A ++ L :: B)) = 0)
    (hl' : countLatS (joinS " " (A ++ L :: L :: B)) = 0)
    (hc : 0 < countCyrS (joinS " " (A ++ L :: B)))
    (hc' : 0 < countCyrS (joinS " " (A ++ L :: L :: B)))
    (hw : ((pySplitS L).length : ℚ) ≤ avgLenQ (A ++ L :: B))
    (hp : avgLenQ (A ++ L :: B) ≤ 20) :
    score_contentQ (A ++ L :: L :: B) < score_contentQ (A ++ L :: B) := by
  obtain ⟨T, hT, hT', hTs, hTub⟩ := reps_structure A B L hmax
  have hn2 : 2 ≤ (A ++ L :: B).length :=
    le_trans h2 (List.count_le_length L (A ++ L :: B))
  have hn1 : 1 ≤ (A ++ L :: B).length := le_trans (by norm_num) hn2
  have hlen' : (A ++ L :: L :: B).length = (A ++ L :: B).length + 1 := by
    simp only [List.length_append, List.length_cons]
    omega
  have hr1 : cyrRatioQ (joinS " " (A ++ L :: B)) = 1 := by
    rw [cyrRatioQ, hl, Nat.add_zero, Nat.max_eq_right hc]
    exact div_self (by exact_mod_cast Nat.pos_iff_ne_zero.1 hc)
  have hr1' : cyrRatioQ (joinS " " (A ++ L :: L :: B)) = 1 := by
    rw [cyrRatioQ, hl', Nat.add_zero, Nat.max_eq_right hc']
    exact div_self (by exact_mod_cast Nat.pos_iff_ne_zero.1 hc')
  have hS' : ((A ++ L :: L :: B).map (fun x => (pySplitS x).length)).sum
      = ((A ++ L :: B).map (fun x => (pySplitS x).length)).sum + (pySplitS L).length := by
    simp only [List.map_append, List.sum_append, List.map_cons, List.sum_cons]
    omega
  have hnpos : (0 : ℚ) < ((A ++ L :: B).length : ℚ) := by
    exact_mod_cast lt_of_lt_of_le Nat.zero_lt_one hn1
  have hwS : ((pySplitS L).length : ℚ) * ((A ++ L :: B).length : ℚ) ≤
      (((A ++ L :: B).map (fun x => (pySplitS x).length)).sum : ℚ) := by
    have h := hw
    rw [avgLenQ, Nat.max_eq_right hn1] at h
    exact (le_div_iff hnpos).1 h
  have havg' : avgLenQ (A ++ L :: L :: B) ≤ avgLenQ (A ++ L :: B) := by
    rw [avgLenQ, avgLenQ, hS', hlen', Nat.max_eq_right hn1,
      Nat.max_eq_right (by omega)]
    rw [div_le_div_iff (by push_cast; linarith) hnpos]
    push_cast
    push_cast at hwS
    nlinarith [hwS]
  have hpermd : List.Perm (A ++ L :: L :: B).dedup (A ++ L :: B).dedup := by
    rw [List.perm_ext_iff_of_nodup (List.nodup_dedup _) (List.nodup_dedup _)]
    intro a
    rw [List.mem_dedup, List.mem_dedup]
    simp only [List.mem_append, List.mem_cons]
    tauto
  have huniq' : uniqRatioQ (A ++ L :: L :: B) ≤ uniqRatioQ (A ++ L :: B) := by
    rw [uniqRatioQ, uniqRatioQ, hpermd.length_eq, hlen', Nat.max_eq_right hn1,
      Nat.max_eq_right (by omega)]
    apply div_le_div_of_nonneg_left (by positivity) hnpos
    push_cast
    linarith
  have hcast : (((A ++ L :: B).count L + 1 - 2 : Nat) : ℚ) =
      (((A ++ L :: B).count L - 2 : Nat) : ℚ) + 1 := by
    have hh : (A ++ L :: B).count L + 1 - 2 = ((A ++ L :: B).count L - 2) + 1 := by
      omega
    rw [hh, Nat.cast_add, Nat.cast_one]
  have htop3 : (((((A ++ L :: B).count L + 1) :: T).take 3).sum) =
      ((((A ++ L :: B).count L :: T)).take 3).sum + 1 := by
    rw [show (3 : Nat) = 2 + 1 from rfl, List.take_succ_cons, List.take_succ_cons,
      List.sum_cons, List.sum_cons]
    omega
  have hpen8 : (((((A ++ L :: B).count L :: T).take 3).sum - 8 : Nat) : ℚ) ≤
      (((((A ++ L :: B).count L :: T).take 3).sum - 7 : Nat) : ℚ) := by
    exact_mod_cast Nat.sub_le_sub_left (by norm_num) _
  have hg0 : 0 ≤ gramPenaltyQ (ngramsS (pySplitS (joinS " " (A ++ L :: L :: B))) 4) :=
    gramPenaltyQ_nonneg _
  have hg1 : gramPenaltyQ (ngramsS (pySplitS (joinS " " (A ++ L :: B))) 4) ≤ 1 :=
    gramPenaltyQ_le_one _
  have hflat : (if uniqRatioQ (A ++ L :: B) < (0.4 : ℚ) then (5 : ℚ) else 0) ≤
      (if uniqRatioQ (A ++ L :: L :: B) < (0.4 : ℚ) then (5 : ℚ) else 0) := by
    split_ifs with ha hb
    · exact le_refl _
    · exact absurd (lt_of_le_of_lt huniq' ha) hb
    · norm_num
    · exact le_refl _
  have hpros : ¬ ((20 : ℚ) < avgLenQ (A ++ L :: B)) := not_lt.2 hp
  have hpros' : ¬ ((20 : ℚ) < avgLenQ (A ++ L :: L :: B)) :=
    not_lt.2 (le_trans havg' hp)
  simp only [score_contentQ, hT, hT', List.headD_cons, hl, hl', hlen']
  rw [htop3, hcast, if_neg hpros, if_neg hpros', hr1, hr1']
  push_cast
  linarith

set_option maxRecDepth 100000 in
/-- C7 counterexample: adding a third, consecutive occurrence of the content
line `мо не ле` (which already appears twice) strictly *raises*
`score_section`: another line already has the maximal multiplicity 3, so the
repeat penalty does not move, while the per-line reward grows. -/
theorem C7_counterexample :
    content_of (score_lines c7t) = c7A ++ c7L :: c7B ∧
    content_of (score_lines c7t2) = c7A ++ c7L :: c7L :: c7B ∧
    2 ≤ (content_of (score_lines c7t)).count c7L ∧
    score_section c7t < score_section c7t2 :=
  ⟨by decide, by decide, by decide, by decide⟩

/-- C7 (amended): adding one more consecutive occurrence of a content line
`L` strictly lowers `score_section` under the conditions the spec's scenario
presupposes: `L` attains the maximal multiplicity and appears at least twice
(so the `max_rep` penalty moves), the content is purely Cyrillic, the average
line length is at most 20 and `L` is no longer than the average (so the
length rewards do not grow).  Without the maximality condition the score can
rise — see the counterexample. -/
theorem C7_extra_repeat_lowers (t t' : String) (A B : List String) (L : String)
    (hT : content_of (score_lines t) = A ++ L :: B)
    (hT' : content_of (score_lines t') = A ++ L :: L :: B)
    (hmax : ∀ x ∈ A ++ L :: B, (A ++ L :: B).count x ≤ (A ++ L :: B).count L)
    (h2 : 2 ≤ (A ++ L :: B).count L)
    (hl : countLatS (joinS " " (A ++ L :: B)) = 0)
    (hl' : countLatS (joinS " " (A ++ L :: L :: B)) = 0)
    (hc : 0 < countCyrS (joinS " " (A ++ L :: B)))
    (hc' : 0 < countCyrS (joinS " " (A ++ L :: L :: B)))
    (hw : ((pySplitS L).length : ℚ) ≤ avgLenQ (A ++ L :: B))
    (hp : avgLenQ (A ++ L :: B) ≤ 20) :
    score_section t' < score_section t := by
  have hcne : A ++ L :: B ≠ [] := by simp
  have hcne' : A ++ L :: L :: B ≠ [] := by simp
  have hlne : score_lines t ≠ [] := by
    intro h
    apply hcne
    rw [← hT, h]
    rfl
  have hlne' : score_lines t' ≠ [] := by
    intro h
    apply hcne'
    rw [← hT', h]
    rfl
  have hs : score_section t = score_contentQ (A ++ L :: B) := by
    rw [score_section]
    rw [if_neg hlne, hT, if_neg hcne]
  have hs' : score_section t' = score_contentQ (A ++ L :: L :: B) := by
    rw [score_section]
    rw [if_neg hlne', hT', if_neg hcne']
  rw [hs, hs']
  exact score_content_extra_repeat_lt A B L hmax h2 hl hl' hc hc' hw hp

/-- Witness for C7 at a concrete pair of texts: going from two to three
copies of `ааа ббб ввв` lowers the score. -/
theorem C7_witness :
    score_section "ааа ббб ввв\nааа ббб ввв\nааа ббб ввв" <
      score_section "ааа ббб ввв\nааа ббб ввв" :=
  C7_extra_repeat_lowers "ааа ббб ввв\nааа ббб ввв"
    "ааа ббб ввв\nааа ббб ввв\nааа ббб ввв" ["ааа ббб ввв"] [] "ааа ббб ввв"
    (by decide) (by decide) (by decide) (by decide) (by decide) (by decide)
    (by decide) (by decide) (by decide) (by decide)

/-!
### C2: the tag lines of the finalized section
-/

theorem splitlinesGo_no_break :
    ∀ (cur rest : List Char), (∀ c ∈ cur, isLineBreak c = false) →
      ∀ ln ∈ splitlinesGo cur rest, ∀ c ∈ ln, isLineBreak c = false := by
  intro cur rest
  induction cur, rest using splitlinesGo.induct with
  | case1 cur hemp =>
    intro hcur ln hln
    rw [splitlinesGo.eq_1, if_pos hemp] at hln
    simp at hln
  | case2 cur hemp =>
    intro hcur ln hln
    rw [splitlinesGo.eq_1, if_neg hemp] at hln
    simp only [List.mem_singleton] at hln
    subst hln
    intro c hc
    exact hcur c (by simpa using hc)
  | case3 cur rest ih =>
    intro hcur ln hln
    rw [splitlinesGo.eq_2] at hln
    rcases List.mem_cons.1 hln with rfl | h2
    · intro c hc
      exact hcur c (by simpa using hc)
    · exact ih (by simp) ln h2
  | case4 cur c0 rest hpat hbr ih =>
    intro hcur ln hln
    rw [splitlinesGo.eq_3 cur c0 rest hpat, if_pos hbr] at hln
    rcases List.mem_cons.1 hln with rfl | h2
    · intro c hc
      exact hcur c (by simpa using hc)
    · exact ih (by simp) ln h2
  | case5 cur c0 rest hpat hbr ih =>
    intro hcur ln hln
    rw [splitlinesGo.eq_3 cur c0 rest hpat, if_neg hbr] at hln
    refine ih ?_ ln hln
    intro c hc
    rcases List.mem_cons.1 hc with rfl | h2
    · simpa using hbr
    · exact hcur c h2

theorem collapseGo_chars :
    ∀ (l : List Char) (b : Bool), ∀ c ∈ collapseGo b l, c ∈ l ∨ c = ' ' := by
  intro l
  induction l with
  | nil =>
    intro b c hc
    simp only [collapseGo] at hc
    exact absurd hc (List.not_mem_nil c)
  | cons a t ih =>
    intro b c hc
    simp only [collapseGo] at hc
    split_ifs at hc with h1 h2
    · rcases ih true c hc with h | h
      · exact Or.inl (List.mem_cons_of_mem _ h)
      · exact Or.inr h
    · rcases List.mem_cons.1 hc with rfl | h3
      · exact Or.inr rfl
      · rcases ih true c h3 with h | h
        · exact Or.inl (List.mem_cons_of_mem _ h)
        · exact Or.inr h
    · rcases List.mem_cons.1 hc with rfl | h3
      · exact Or.inl (List.mem_cons_self _ _)
      · rcases ih false c h3 with h | h
        · exact Or.inl (List.mem_cons_of_mem _ h)
        · exact Or.inr h

theorem stripList_subset (l : List Char) : ∀ c ∈ stripList l, c ∈ l := by
  intro c hc
  unfold stripList at hc
  have h1 := (List.rdropWhile_prefix isPySpace (l.dropWhile isPySpace)).subset hc
  exact (List.dropWhile_sublist isPySpace).subset h1

theorem processLine_keep_good {cfg : FilterConfig} {raw y : String}
    (hbf : ∀ c ∈ raw.data, isLineBreak c = false)
    (h : processLine cfg raw = .tagKeep y ∨ processLine cfg raw = .contentKeep y) :
    y.data ≠ [] ∧ stripList y.data = y.data ∧
      ∀ c ∈ y.data, isLineBreak c = false := by
  have h1 : stripList raw.data ≠ [] := by
    intro h0
    rcases h with h | h <;> rw [processLine_eq_drop_of_empty h0] at h <;> cases h
  have hPr := @processLine_eq_classify cfg raw h1
  set w := if cfg.collapse_whitespace then collapseWs (stripList raw.data)
           else stripList raw.data with hw
  have hwne : w ≠ [] := by
    rw [hw]
    by_cases hcol : cfg.collapse_whitespace = true
    · rw [if_pos hcol]
      exact collapseWs_ne_nil h1
    · rw [if_neg hcol]
      exact h1
  have hws : stripList w = w := by
    by_cases hcol : cfg.collapse_whitespace = true
    · rw [hw, if_pos hcol]
      exact stripList_collapse_stripList _
    · rw [hw, if_neg hcol]
      exact stripList_stripList _
  have ht : y = String.mk w := by
    rw [hPr] at h
    rcases h with h | h
    · exact (classifyLine_tagKeep_inv h).1
    · exact (classifyLine_contentKeep_inv h).1
  have hbf2 : ∀ c ∈ w, isLineBreak c = false := by
    intro c hc
    rw [hw] at hc
    by_cases hcol : cfg.collapse_whitespace = true
    · rw [if_pos hcol] at hc
      rcases collapseGo_chars _ false c hc with h2 | h2
      · exact hbf c (stripList_subset _ c h2)
      · rw [h2]
        rfl
    · rw [if_neg hcol] at hc
      exact hbf c (stripList_subset _ c hc)
  exact ⟨by rw [ht]; exact hwne, by rw [ht]; exact hws, by rw [ht]; exact hbf2⟩

theorem cleanLinesGo_mem_src (cfg : FilterConfig) :
    ∀ (lines acc : List String) (lastLine : Option String) (lastCount : Nat)
      (y : String), y ∈ cleanLinesGo cfg lines acc lastLine lastCount →
      y ∈ acc ∨ ∃ raw ∈ lines,
        processLine cfg raw = .tagKeep y ∨ processLine cfg raw = .contentKeep y := by
  intro lines
  induction lines with
  | nil =>
    intro acc lastLine lastCount y hy
    simp only [cleanLinesGo] at hy
    exact Or.inl (by simpa using hy)
  | cons raw rest ih =>
    intro acc lastLine lastCount y hy
    cases hp : processLine cfg raw with
    | drop =>
      simp only [cleanLinesGo, hp] at hy
      rcases ih _ _ _ y hy with hin | ⟨r, hr, hh⟩
      · exact Or.inl hin
      · exact Or.inr ⟨r, List.mem_cons_of_mem _ hr, hh⟩
    | tagKeep t =>
      simp only [cleanLinesGo, hp] at hy
      rcases ih _ _ _ y hy with hin | ⟨r, hr, hh⟩
      · rcases List.mem_cons.1 hin with rfl | hin2
        · exact Or.inr ⟨raw, List.mem_cons_self _ _, Or.inl hp⟩
        · exact Or.inl hin2
      · exact Or.inr ⟨r, List.mem_cons_of_mem _ hr, hh⟩
    | contentKeep c =>
      simp only [cleanLinesGo, hp] at hy
      by_cases hc : lastLine = some c
      · rw [if_pos hc] at hy
        by_cases hcount : lastCount + 1 ≥ cfg.max_same_line_repeats
        · rw [if_pos hcount] at hy
          rcases ih _ _ _ y hy with hin | ⟨r, hr, hh⟩
          · exact Or.inl hin
          · exact Or.inr ⟨r, List.mem_cons_of_mem _ hr, hh⟩
        · rw [if_neg hcount] at hy
          rcases ih _ _ _ y hy with hin | ⟨r, hr, hh⟩
          · rcases List.mem_cons.1 hin with rfl | hin2
            · exact Or.inr ⟨raw, List.mem_cons_self _ _, Or.inr hp⟩
            · exact Or.inl hin2
          · exact Or.inr ⟨r, List.mem_cons_of_mem _ hr, hh⟩
      · rw [if_neg hc] at hy
        rcases ih _ _ _ y hy with hin | ⟨r, hr, hh⟩
        · rcases List.mem_cons.1 hin with rfl | hin2
          · exact Or.inr ⟨raw, List.mem_cons_self _ _, Or.inr hp⟩
          · exact Or.inl hin2
        · exact Or.inr ⟨r, List.mem_cons_of_mem _ hr, hh⟩

theorem splitlinesGo_no_break_single (x : List Char) :
    ∀ cur, (∀ c ∈ x, isLineBreak c = false) → cur.reverse ++ x ≠ [] →
      splitlinesGo cur x = [cur.reverse ++ x] := by
  induction x with
  | nil =>
    intro cur _ hne
    rw [splitlinesGo.eq_1, if_neg (by simpa using hne)]
    simp
  | cons a x ih =>
    intro cur hx hne
    have ha : isLineBreak a = false := hx a (List.mem_cons_self a x)
    have har : a ≠ '\r' := by
      intro h
      rw [h] at ha
      exact absurd ha (by decide)
    rw [splitlinesGo.eq_3 cur a x (fun r hc _ => absurd hc har), if_neg (by simp [ha]),
      ih (a :: cur) (fun c hc => hx c (List.mem_cons_of_mem a hc)) (by simp)]
    simp

theorem splitlines_join :
    ∀ (L : List (List Char)), L ≠ [] → (∀ x ∈ L, x ≠ []) →
      (∀ x ∈ L, ∀ c ∈ x, isLineBreak c = false) →
      splitlinesList (joinSep ['\n'] L) = L := by
  intro L
  induction L with
  | nil => exact fun h _ _ => absurd rfl h
  | cons x xs ih =>
    intro _ hne hbf
    cases xs with
    | nil =>
      show splitlinesList (joinSep ['\n'] [x]) = [x]
      rw [show joinSep ['\n'] [x] = x from rfl, splitlinesList,
        splitlinesGo_no_break_single x [] (hbf x (List.mem_cons_self _ _))
          (by simpa using hne x (List.mem_cons_self _ _))]
      simp
    | cons y ys =>
      have hjoin : joinSep ['\n'] (x :: y :: ys) =
          x ++ '\n' :: joinSep ['\n'] (y :: ys) := by
        show x ++ ['\n'] ++ joinSep ['\n'] (y :: ys) = _
        simp
      rw [hjoin, splitlinesList,
        splitlinesGo_line x [] _ (hbf x (List.mem_cons_self _ _)), ← splitlinesList,
        ih (by simp) (fun z hz => hne z (List.mem_cons_of_mem _ hz))
          (fun z hz => hbf z (List.mem_cons_of_mem _ hz))]
      simp

theorem joinSep_head (sep : List Char) (x : List Char) (xs : List (List Char))
    (hx : x ≠ []) : (joinSep sep (x :: xs)).head? = x.head? := by
  obtain ⟨c, cs, rfl⟩ : ∃ c cs, x = c :: cs := by
    cases x with
    | nil => exact absurd rfl hx
    | cons c cs => exact ⟨c, cs, rfl⟩
  cases xs with
  | nil => rfl
  | cons y ys =>
    show ((c :: cs) ++ sep ++ joinSep sep (y :: ys)).head? = _
    simp

theorem joinSep_getLast (sep : List Char) :
    ∀ (L : List (List Char)) (x : List Char), (∀ y ∈ L, y ≠ []) →
      L.getLast? = some x → (joinSep sep L).getLast? = x.getLast? := by
  intro L
  induction L with
  | nil =>
    intro x _ hlast
    cases hlast
  | cons a xs ih =>
    intro x hne hlast
    cases xs with
    | nil =>
      simp only [List.getLast?_singleton, Option.some.injEq] at hlast
      subst hlast
      rfl
    | cons y ys =>
      rw [getLast?_cons_ne_nil (by simp)] at hlast
      have hr := ih x (fun z hz => hne z (List.mem_cons_of_mem _ hz)) hlast
      have hxne : x ≠ [] :=
        hne x (List.mem_cons_of_mem _ (List.mem_of_getLast?_eq_some hlast))
      obtain ⟨e, he⟩ : ∃ e, x.getLast? = some e :=
        ⟨x.getLast hxne, List.getLast?_eq_getLast x hxne⟩
      show (a ++ sep ++ joinSep sep (y :: ys)).getLast? = x.getLast?
      rw [he]
      exact getLast?_of_suffix ⟨a ++ sep, rfl⟩ (by rw [hr, he])

theorem tagNameOf_ne_nil {l : List Char} (h : tagOpenMatch l = true) :
    tagNameOf l ≠ [] := by
  unfold tagOpenMatch at h
  unfold tagNameOf
  split at h
  · rw [Bool.and_eq_true] at h
    intro h0
    rw [h0] at h
    simp at h
  · simp at h

theorem tagOpenMatch_ne_nil {l : List Char} (h : tagOpenMatch l = true) :
    l ≠ [] := by
  intro h0
  rw [h0] at h
  exact absurd h (by decide)

theorem tagCloseMatch_ne_nil {l : List Char} (h : tagCloseMatch l = true) :
    l ≠ [] := by
  intro h0
  rw [h0] at h
  exact absurd h (by decide)

theorem splitlinesS_line_facts {text ln : String} (h : ln ∈ splitlinesS text) :
    ∀ c ∈ ln.data, isLineBreak c = false := by
  obtain ⟨lnL, hlnL, rfl⟩ := List.mem_map.1 h
  exact splitlinesGo_no_break [] text.data (by simp) lnL hlnL

theorem extract_open_spec {text : String}
    (ho : (extract_tagged_block text).2.1 ≠ "") :
    tagOpenMatch ((extract_tagged_block text).2.1).data = true ∧
    (extract_tagged_block text).1 ≠ "" ∧
    ((extract_tagged_block text).2.1).data ≠ [] ∧
    stripList ((extract_tagged_block text).2.1).data =
      ((extract_tagged_block text).2.1).data ∧
    (∀ c ∈ ((extract_tagged_block text).2.1).data, isLineBreak c = false) := by
  rcases hfind : ((splitlinesS text).filter (fun ln => pyStripS ln ≠ "")).find?
      (fun ln => tagOpenMatch (pyStripS ln).data) with _ | ln
  · exact absurd (by simp only [extract_tagged_block, hfind]) ho
  · have hp : tagOpenMatch (pyStripS ln).data = true := by
      simpa using List.find?_some hfind
    have hmem := List.mem_of_find?_eq_some hfind
    have hval : (extract_tagged_block text).2.1 = pyStripS ln := by
      simp only [extract_tagged_block, hfind]
    have hdata : (pyStripS ln).data = stripList ln.data := rfl
    have hbf : ∀ c ∈ (pyStripS ln).data, isLineBreak c = false := by
      intro c hc
      rw [hdata] at hc
      exact splitlinesS_line_facts (List.mem_of_mem_filter hmem) c
        (stripList_subset _ c hc)
    refine ⟨by rw [hval]; exact hp, ?_, by rw [hval]; exact tagOpenMatch_ne_nil hp,
      by rw [hval, hdata]; exact stripList_stripList _, by rw [hval]; exact hbf⟩
    have htag : (extract_tagged_block text).1 =
        String.mk (tagNameOf (pyStripS ln).data) := by
      simp only [extract_tagged_block, hfind]
    rw [htag]
    intro h0
    exact absurd (congrArg String.data h0) (tagNameOf_ne_nil hp)

theorem extract_close_spec {text : String}
    (hc : (extract_tagged_block text).2.2 ≠ "") :
    tagCloseMatch ((extract_tagged_block text).2.2).data = true ∧
    ((extract_tagged_block text).2.2).data ≠ [] ∧
    stripList ((extract_tagged_block text).2.2).data =
      ((extract_tagged_block text).2.2).data ∧
    (∀ c ∈ ((extract_tagged_block text).2.2).data, isLineBreak c = false) := by
  rcases hfind : ((splitlinesS text).filter (fun ln => pyStripS ln ≠ "")).reverse.find?
      (fun ln => tagCloseMatch (pyStripS ln).data) with _ | ln
  · exact absurd (by simp only [extract_tagged_block, hfind]) hc
  · have hp : tagCloseMatch (pyStripS ln).data = true := by
      simpa using List.find?_some hfind
    have hmem := List.mem_reverse.1 (List.mem_of_find?_eq_some hfind)
    have hval : (extract_tagged_block text).2.2 = pyStripS ln := by
      simp only [extract_tagged_block, hfind]
    have hdata : (pyStripS ln).data = stripList ln.data := rfl
    have hbf : ∀ c ∈ (pyStripS ln).data, isLineBreak c = false := by
      intro c hcc
      rw [hdata] at hcc
      exact splitlinesS_line_facts (List.mem_of_mem_filter hmem) c
        (stripList_subset _ c hcc)
    exact ⟨by rw [hval]; exact hp, by rw [hval]; exact tagCloseMatch_ne_nil hp,
      by rw [hval, hdata]; exact stripList_stripList _, by rw [hval]; exact hbf⟩

theorem clean_section_lines_good {text : String} {cfg : FilterConfig}
    (ho : (extract_tagged_block text).2.1 ≠ "")
    (hc : (extract_tagged_block text).2.2 ≠ "") :
    clean_section_lines text cfg ≠ [] ∧
    (∃ h, (clean_section_lines text cfg).head? = some h ∧
      tagOpenMatch h.data = true) ∧
    (∃ z, (clean_section_lines text cfg).getLast? = some z ∧
      tagCloseMatch z.data = true) ∧
    (∀ s ∈ clean_section_lines text cfg, s.data ≠ [] ∧
      stripList s.data = s.data ∧ ∀ c ∈ s.data, isLineBreak c = false) := by
  obtain ⟨hoM, htagne, hone, hostrip, hobf⟩ := extract_open_spec ho
  obtain ⟨hcM, hcne, hcstrip, hcbf⟩ := extract_close_spec hc
  have hclean_good : ∀ s ∈ clean_lines (splitlinesS text) cfg,
      s.data ≠ [] ∧ stripList s.data = s.data ∧
        ∀ c ∈ s.data, isLineBreak c = false := by
    intro s hs
    rcases cleanLinesGo_mem_src cfg (splitlinesS text) [] none 0 s hs with
      h0 | ⟨raw, hraw, hkeep⟩
    · simp at h0
    · exact processLine_keep_good (splitlinesS_line_facts hraw) hkeep
  have hstep : ∃ c1 : List String,
      (match clean_lines (splitlinesS text) cfg with
        | [] => [(extract_tagged_block text).2.1]
        | x :: _ => if tagOpenMatch x.data then clean_lines (splitlinesS text) cfg
            else (extract_tagged_block text).2.1 :: clean_lines (splitlinesS text) cfg) = c1 ∧
      c1 ≠ [] ∧
      (∃ h, c1.head? = some h ∧ tagOpenMatch h.data = true) ∧
      (∀ s ∈ c1, s.data ≠ [] ∧ stripList s.data = s.data ∧
        ∀ c ∈ s.data, isLineBreak c = false) := by
    rcases hcl : clean_lines (splitlinesS text) cfg with _ | ⟨x, xs⟩
    · refine ⟨[(extract_tagged_block text).2.1], rfl, by simp,
        ⟨_, rfl, hoM⟩, ?_⟩
      intro s hs
      rw [List.mem_singleton] at hs
      subst hs
      exact ⟨hone, hostrip, hobf⟩
    · by_cases hx : tagOpenMatch x.data = true
      · refine ⟨x :: xs, ?_, by simp, ⟨x, rfl, hx⟩, ?_⟩
        · show (if tagOpenMatch x.data then x :: xs
            else (extract_tagged_block text).2.1 :: x :: xs) = x :: xs
          rw [if_pos hx]
        · intro s hs
          exact hclean_good s (by rw [hcl]; exact hs)
      · refine ⟨(extract_tagged_block text).2.1 :: x :: xs, ?_, by simp,
          ⟨_, rfl, hoM⟩, ?_⟩
        · show (if tagOpenMatch x.data then x :: xs
            else (extract_tagged_block text).2.1 :: x :: xs) =
            (extract_tagged_block text).2.1 :: x :: xs
          rw [if_neg hx]
        · intro s hs
          rcases List.mem_cons.1 hs with rfl | hs2
          · exact ⟨hone, hostrip, hobf⟩
          · exact hclean_good s (by rw [hcl]; exact hs2)
  obtain ⟨c1, hc1eq, hc1ne, ⟨h, hh, hhM⟩, hc1good⟩ := hstep
  have hmain : clean_section_lines text cfg =
      match c1.getLast? with
      | none => c1 ++ [(extract_tagged_block text).2.2]
      | some x => if tagCloseMatch x.data then c1
          else c1 ++ [(extract_tagged_block text).2.2] := by
    simp only [clean_section_lines]
    rw [if_pos htagne, hc1eq]
  rcases hl : c1.getLast? with _ | z
  · exact absurd (by simpa using hl) hc1ne
  · by_cases hz : tagCloseMatch z.data = true
    · have hfin : clean_section_lines text cfg = c1 := by
        rw [hmain, hl]
        show (if tagCloseMatch z.data then c1
          else c1 ++ [(extract_tagged_block text).2.2]) = c1
        rw [if_pos hz]
      rw [hfin]
      exact ⟨hc1ne, ⟨h, hh, hhM⟩, ⟨z, hl, hz⟩, hc1good⟩
    · have hfin : clean_section_lines text cfg =
          c1 ++ [(extract_tagged_block text).2.2] := by
        rw [hmain, hl]
        show (if tagCloseMatch z.data then c1
          else c1 ++ [(extract_tagged_block text).2.2]) =
          c1 ++ [(extract_tagged_block text).2.2]
        rw [if_neg hz]
      rw [hfin]
      obtain ⟨t, rfl⟩ : ∃ t, c1 = h :: t := by
        cases c1 with
        | nil => cases hh
        | cons a t =>
          simp only [List.head?_cons, Option.some.injEq] at hh
          exact ⟨t, by rw [hh]⟩
      refine ⟨by simp, ⟨h, by simp, hhM⟩, ⟨(extract_tagged_block text).2.2,
        List.getLast?_concat _, hcM⟩, ?_⟩
      intro s hs
      rcases List.mem_append.1 hs with hs1 | hs2
      · exact hc1good s hs1
      · rw [List.mem_singleton] at hs2
        subst hs2
        exact ⟨hcne, hcstrip, hcbf⟩

theorem splitlinesS_clean_section {text : String} {cfg : FilterConfig}
    (hne : clean_section_lines text cfg ≠ [])
    (hgood : ∀ s ∈ clean_section_lines text cfg, s.data ≠ [] ∧
      stripList s.data = s.data ∧ ∀ c ∈ s.data, isLineBreak c = false) :
    splitlinesS (clean_section_text text cfg) = clean_section_lines text cfg := by
  have hmapne : (clean_section_lines text cfg).map String.data ≠ [] := by
    simpa using hne
  have hels : ∀ x ∈ (clean_section_lines text cfg).map String.data, x ≠ [] := by
    intro x hx
    obtain ⟨s, hs, rfl⟩ := List.mem_map.1 hx
    exact (hgood s hs).1
  have hbfs : ∀ x ∈ (clean_section_lines text cfg).map String.data,
      ∀ c ∈ x, isLineBreak c = false := by
    intro x hx
    obtain ⟨s, hs, rfl⟩ := List.mem_map.1 hx
    exact (hgood s hs).2.2
  have hround : splitlinesList
      (joinSep ['\n'] ((clean_section_lines text cfg).map String.data)) =
      (clean_section_lines text cfg).map String.data :=
    splitlines_join _ hmapne hels hbfs
  obtain ⟨s0, rest, h0⟩ : ∃ s0 rest, clean_section_lines text cfg = s0 :: rest := by
    cases hcl : clean_section_lines text cfg with
    | nil => exact absurd hcl hne
    | cons a t => exact ⟨a, t, rfl⟩
  have hstripJ : stripList
      (joinSep ['\n'] ((clean_section_lines text cfg).map String.data)) =
      joinSep ['\n'] ((clean_section_lines text cfg).map String.data) := by
    apply stripList_eq_self
    · intro c hcc
      rw [h0, List.map_cons,
        joinSep_head ['\n'] s0.data _ ((hgood s0 (by rw [h0]; simp)).1)] at hcc
      apply stripList_head_not_space s0.data
      rw [(hgood s0 (by rw [h0]; simp)).2.1]
      exact hcc
    · intro c hcc
      obtain ⟨sl, hsl⟩ : ∃ sl, (clean_section_lines text cfg).getLast? = some sl := by
        rw [h0]
        exact ⟨(s0 :: rest).getLast (by simp), List.getLast?_eq_getLast _ _⟩
      have hslmem : sl ∈ clean_section_lines text cfg :=
        List.mem_of_getLast?_eq_some hsl
      have hmap_last : ((clean_section_lines text cfg).map String.data).getLast? =
          some sl.data := by
        rw [List.getLast?_map, hsl]
        rfl
      rw [joinSep_getLast ['\n'] _ sl.data hels hmap_last] at hcc
      apply stripList_getLast_not_space sl.data
      rw [(hgood sl hslmem).2.1]
      exact hcc
  have htext : clean_section_text text cfg = String.mk
      (joinSep ['\n'] ((clean_section_lines text cfg).map String.data)) := by
    rw [clean_section_text]
    show String.mk (stripList (joinSep "\n".data _)) = _
    rw [show "\n".data = ['\n'] from rfl, hstripJ]
  rw [htext, splitlinesS]
  show (splitlinesList (joinSep ['\n'] _)).map String.mk = _
  rw [hround, List.map_map]
  have hid : ∀ s ∈ clean_section_lines text cfg, (String.mk ∘ String.data) s = id s :=
    fun s _ => rfl
  rw [List.map_congr_left hid, List.map_id]

/-- C2 (amended): whenever the raw text contains a recoverable tagged block
(`extract_tagged_block` yields a non-empty open line and a non-empty close
line), the finalized section text produced by `clean_section_text` starts
with a line matching the `TAG_OPEN` pattern and ends with a line matching the
`TAG_CLOSE` pattern — for every `FilterConfig`.  The tags are the ones found
in the raw text, not necessarily the ones of the plan step's `SectionSpec`,
and when the raw text has no tagged block the output need not carry any tag
at all (see the counterexample). -/
theorem C2_tag_repair (text : String) (cfg : FilterConfig)
    (ho : (extract_tagged_block text).2.1 ≠ "")
    (hc : (extract_tagged_block text).2.2 ≠ "") :
    tagOpenMatch (firstLineS (clean_section_text text cfg)).data = true ∧
    tagCloseMatch (lastLineS (clean_section_text text cfg)).data = true := by
  obtain ⟨hne, ⟨h, hh, hhM⟩, ⟨z, hz, hzM⟩, hgood⟩ := clean_section_lines_good ho hc
  have hsplit := splitlinesS_clean_section hne hgood
  constructor
  · rw [firstLineS, hsplit]
    have : (clean_section_lines text cfg).headD "" = h := by
      rw [List.headD_eq_head?, hh]
      rfl
    rw [this]
    exact hhM
  · rw [lastLineS, hsplit]
    have : (clean_section_lines text cfg).getLastD "" = z := by
      rw [List.getLastD_eq_getLast?, hz]
      rfl
    rw [this]
    exact hzM

set_option maxRecDepth 100000 in
/-- C2 counterexample: on a raw generation output with no tag lines at all,
the finalized section (the cleaned selected candidate) neither starts with
the open tag of its `SectionSpec` (VERSE, speaker speransky, index 1) nor
with any `TAG_OPEN`-matching line, and its last line matches no `TAG_CLOSE`:
the tag-repair step has nothing to recover from. -/
theorem C2_counterexample :
    firstLineS (generate_section_with_retries ["ааа ббб ввв"] "" {}) ≠
      section_open_tag "VERSE" "speransky" (some 1) ∧
    tagOpenMatch (firstLineS (generate_section_with_retries ["ааа ббб ввв"] "" {})).data
      = false ∧
    tagCloseMatch (lastLineS (generate_section_with_retries ["ааа ббб ввв"] "" {})).data
      = false :=
  ⟨by decide, by decide, by decide⟩

/-- Witness for C2 at the concrete OUTRO text `c3Text`. -/
theorem C2_witness :
    ((extract_tagged_block c3Text).2.1 ≠ "" ∧ (extract_tagged_block c3Text).2.2 ≠ "") ∧
    (tagOpenMatch (firstLineS (clean_section_text c3Text {})).data = true ∧
     tagCloseMatch (lastLineS (clean_section_text c3Text {})).data = true) :=
  ⟨⟨by decide, by decide⟩, C2_tag_repair c3Text {} (by decide) (by decide)⟩

end SongGen
